import Mathlib

/-!
Flash-dismiss controller (`static/js/main.js`).

The script registers one `DOMContentLoaded` handler.  The handler selects every
element matching `.flash` and, for each of them, arms a 5000 ms timer whose
callback sets `el.style.animation` and arms a second, 300 ms timer whose
callback calls `el.remove()`.

The embedding below models the host facilities the script calls
(`querySelectorAll`, `setTimeout`, `style.animation = …`, `remove()`) on an
explicit page state: a store of element objects addressed by reference, a timer
queue ordered by due time, and a simulated clock.  The store alone describes a
page whose elements sit side by side under the body; a layout on top of it
(`Layout`, `inDocument`) describes nested pages, where removing an element
takes what is inside it out of the document as well.
-/

namespace FlashDismiss

/-! ## Data model -/

/-- An element object of the page.  `isConnected` tells whether the node is
linked into its place in the page, which for an element directly under the body
is being in the document (for nested elements see `inDocument`); `animation` is
the value of `el.style.animation` (the empty string when unset). -/
structure Element where
  classList : List String
  textContent : String
  animation : String
  isConnected : Bool
deriving DecidableEq, Repr

/-- The element store.  A reference to an element is its position in the store,
so two elements with equal content are still two distinct objects.  Detached
elements stay in the store (closures may still hold them). -/
abbrev Dom := List Element

/-- The exceptions the DOM calls used by the script can raise. -/
inductive DomError where
  | syntaxError
deriving DecidableEq, Repr

/-- The two closures of the script, each with the element it captured.
`startClosing el` is the callback of lines 4-7, `removeEl el` the arrow
`() => el.remove()` of line 6. -/
inductive Callback where
  | startClosing (el : Nat)
  | removeEl (el : Nat)
deriving DecidableEq, Repr

/-- The element a closure captured. -/
def Callback.target : Callback → Nat
  | .startClosing el => el
  | .removeEl el => el

/-- A pending timer: absolute due time (ms) and callback. -/
structure Timer where
  due : Nat
  cb : Callback
deriving DecidableEq, Repr

/-- Page state: the clock, the element store, the timer queue (next timer
first) and the history of the timers that have fired so far, oldest first. -/
structure State where
  now : Nat
  dom : Dom
  timers : List Timer
  fired : List Timer
deriving DecidableEq, Repr

/-- The page at the moment the document becomes ready: time 0, nothing
scheduled. -/
def State.load (dom : Dom) : State :=
  { now := 0, dom := dom, timers := [], fired := [] }

/-! ## Host operations -/

/-- Characters allowed in a class name. -/
def isNameChar (c : Char) : Bool :=
  c.isAlphanum || c == '-' || c == '_'

/-- Parse a selector of the form `.name`; anything else is rejected. -/
def parseClassSelector (sel : String) : Option String :=
  match sel.data with
  | '.' :: c :: cs =>
    if !c.isDigit && (c :: cs).all isNameChar then some (String.mk (c :: cs)) else none
  | _ => none

/-- Whether the element at reference `i` is in the document and carries class
`cls`. -/
def matchesClass (dom : Dom) (cls : String) (i : Nat) : Bool :=
  match dom[i]? with
  | some e => e.isConnected && e.classList.contains cls
  | none => false

/-- `document.querySelectorAll(sel)`: the references of the matching elements in
document order, or `SyntaxError` for a selector that does not parse. -/
def querySelectorAll (dom : Dom) (sel : String) : Except DomError (List Nat) :=
  match parseClassSelector sel with
  | none => .error .syntaxError
  | some cls => .ok ((List.range dom.length).filter (matchesClass dom cls))

/-- Queue insertion: after every timer that is due no later than the new one,
so timers fire by due time and, among equal due times, in the order they were
set. -/
def insertTimer (tm : Timer) : List Timer → List Timer
  | [] => [tm]
  | x :: xs => if x.due ≤ tm.due then x :: insertTimer tm xs else tm :: x :: xs

/-- `setTimeout(cb, delay)`. -/
def setTimeout (s : State) (cb : Callback) (delay : Nat) : State :=
  { s with timers := insertTimer ⟨s.now + delay, cb⟩ s.timers }

/-- `el.style.animation = v`. -/
def setAnimation (dom : Dom) (el : Nat) (v : String) : Dom :=
  dom.modify (fun e => { e with animation := v }) el

/-- `el.remove()`: returns at once when the node has no parent, otherwise takes
it out of its place.  What sits inside the node keeps its own link and leaves
the document with it (`inDocument`). -/
def remove (dom : Dom) (el : Nat) : Dom :=
  dom.modify (fun e => if e.isConnected then { e with isConnected := false } else e) el

/-! ## The script -/

/-- The value assigned on line 5. -/
def slideOut : String := "slideOut .3s ease forwards"

/-- Body of a closure of the script, run at the current clock. -/
def runCallback (s : State) : Callback → State
  | .startClosing el =>
    setTimeout { s with dom := setAnimation s.dom el slideOut } (.removeEl el) 300
  | .removeEl el => { s with dom := remove s.dom el }

/-- The `DOMContentLoaded` handler (lines 2-9). -/
def onDOMContentLoaded (s : State) : Except DomError State := do
  let els ← querySelectorAll s.dom ".flash"
  pure (els.foldl (fun st el => setTimeout st (.startClosing el) 5000) s)

/-- The page right after the handler has run on the loaded page: one closing
timer per matched element (`onDOMContentLoaded_load` below shows that this is
what the handler returns). -/
def armedPage (dom : Dom) : State :=
  { now := 0
    dom := dom
    timers := ((List.range dom.length).filter (matchesClass dom "flash")).map
      (fun el => ⟨5000, .startClosing el⟩)
    fired := [] }

/-! ## The timer loop -/

/-- Number of loop iterations a pending callback can cause: itself, plus the
timer it sets. -/
def Callback.cost : Callback → Nat
  | .startClosing _ => 2
  | .removeEl _ => 1

/-- Iterations that empty a queue. -/
def queueCost (q : List Timer) : Nat :=
  (q.map (fun tm => tm.cb.cost)).sum

/-- One iteration of the timer loop: take timer `tm` off the queue (leaving
`rest`), move the clock to its due time, record it and run its callback. -/
def fireTimer (s : State) (tm : Timer) (rest : List Timer) : State :=
  runCallback { s with now := tm.due, timers := rest, fired := s.fired ++ [tm] } tm.cb

/-- Fire the timers that are due at or before `t`, next timer first; a callback
runs with the clock at its timer's due time. -/
def runTimers : Nat → State → Nat → State
  | 0, s, _ => s
  | fuel + 1, s, t =>
    match s.timers with
    | [] => s
    | tm :: rest => if tm.due ≤ t then runTimers fuel (fireTimer s tm rest) t else s

/-- Let `ms` milliseconds pass. -/
def advanceTimersByTime (s : State) (ms : Nat) : State :=
  { runTimers (queueCost s.timers) s (s.now + ms) with now := s.now + ms }

/-! ## Other scripts on the page -/

/-- What code other than the controller may do to an element of a page without
nesting (for nested pages, where a new element can go inside another one, see
`ExternalIn`). -/
inductive External where
  | detach (el : Nat)
  | attach (el : Nat)
  | setStyle (el : Nat) (v : String)
  | create (e : Element)
deriving DecidableEq, Repr

/-- Whether an external action addresses the element at reference `i`. -/
def External.touches : External → Nat → Bool
  | .detach el, i => el == i
  | .attach el, i => el == i
  | .setStyle el _, i => el == i
  | .create _, _ => false

/-- Whether an external action adds a new element to the store. -/
def External.isCreate : External → Bool
  | .create _ => true
  | _ => false

/-- Effect of an external action on the store.  Detaching an element cuts its
own link only; what sits inside it leaves the document through `inDocument`. -/
def applyExternal (dom : Dom) : External → Dom
  | .detach el => remove dom el
  | .attach el => dom.modify (fun e => { e with isConnected := true }) el
  | .setStyle el v => setAnimation dom el v
  | .create e => dom ++ [{ e with isConnected := true }]

/-- A script of external activity: wait `delay` ms, then act, repeatedly. -/
def runScript (s : State) : List (Nat × External) → State
  | [] => s
  | (delay, a) :: rest =>
    let s1 := advanceTimersByTime s delay
    runScript { s1 with dom := applyExternal s1.dom a } rest

/-! ## Reading the closing value -/

/-- A parsed `animation` shorthand of the form
`<name> <duration> <easing> <fill-mode>`, the duration in milliseconds. -/
structure Animation where
  name : String
  durationMs : Nat
  easing : String
  fillMode : String
deriving DecidableEq, Repr

/-- Split at single spaces. -/
def splitSpaces : List Char → List (List Char)
  | [] => [[]]
  | c :: cs =>
    match splitSpaces cs with
    | [] => [[c]]
    | w :: ws => if c = ' ' then [] :: w :: ws else (c :: w) :: ws

/-- Value of a string of decimal digits. -/
def digitsVal (cs : List Char) : Option Nat :=
  if cs.all Char.isDigit then some (cs.foldl (fun n c => 10 * n + (c.toNat - 48)) 0) else none

/-- A CSS time in seconds (`.3s`, `2s`, `1.25s`) as milliseconds; digits past
the third decimal place are dropped. -/
def cssTimeMs (tok : List Char) : Option Nat :=
  match tok.reverse with
  | 's' :: rev =>
    let num := rev.reverse
    let whole := num.takeWhile (fun c => c != '.')
    let frac := (num.dropWhile (fun c => c != '.')).drop 1
    if num.all (fun c => c == '.') then none
    else do
      let a ← digitsVal whole
      let b ← digitsVal ((frac ++ ['0', '0', '0']).take 3)
      pure (a * 1000 + b)
  | _ => none

/-- Read an `animation` value written as name, duration, easing, fill mode. -/
def parseAnimation (v : String) : Option Animation :=
  match splitSpaces v.data with
  | [name, dur, easing, fill] =>
    if String.mk easing ∈ ["ease", "linear", "ease-in", "ease-out", "ease-in-out"] ∧
        String.mk fill ∈ ["none", "forwards", "backwards", "both"] then
      (cssTimeMs dur).map (fun d => ⟨String.mk name, d, String.mk easing, String.mk fill⟩)
    else none
  | _ => none

/-- The page as observed after the external script has run and `ms` further
milliseconds have passed. -/
def observe (s : State) (script : List (Nat × External)) (ms : Nat) : State :=
  advanceTimersByTime (runScript s script) ms

/-! ## Example page -/

/-- A page with two connected notices (references 0 and 3), a plain paragraph
and a notice that is not in the document. -/
def demoDom : Dom :=
  [ ⟨["flash", "success"], "Saved", "", true⟩,
    ⟨["content"], "Dashboard", "", true⟩,
    ⟨["flash"], "Stale", "", false⟩,
    ⟨["flash", "error"], "Failed", "fadeIn 1s", true⟩ ]

/-- Other scripts detach the second notice after 2000 ms and add a new notice
3200 ms later. -/
def demoScript : List (Nat × External) :=
  [(2000, .detach 3), (3200, .create ⟨["flash"], "Late", "", false⟩)]

/-! ## Nested pages

The store records, for each element, whether it is linked into its place
(`isConnected`).  On a page whose elements all sit directly under the body that
is the same as being in the document, and the definitions above are the whole
story.  A layout adds where the place of each element is, so that an element
inside another one leaves the document with it. -/

/-- The place of each element of the store: `none` directly under the body,
`some p` as a child of the element at reference `p`.  The store is in document
order, so a parent precedes its children; references past the end of the list
count as `none`. -/
abbrev Layout := List (Option Nat)

/-- The parent of the element at reference `i`, if it has one. -/
def placeOf (layout : Layout) (i : Nat) : Option Nat :=
  layout[i]?.join

/-- Whether `P` holds of the element at reference `i` and of every element it
sits inside, up to the body.  A parent reference that does not precede the
element is no place at all. -/
def chainAll (layout : Layout) (P : Nat → Bool) : Nat → Nat → Bool
  | 0, _ => false
  | fuel + 1, i =>
    P i && match placeOf layout i with
      | none => true
      | some p => decide (p < i) && chainAll layout P fuel p

/-- Whether the element at reference `i` is linked into its place. -/
def isLinked (dom : Dom) (i : Nat) : Bool :=
  match dom[i]? with
  | some e => e.isConnected
  | none => false

/-- `el.isConnected` on a nested page: the element and everything it sits
inside are linked into their places. -/
def inDocument (layout : Layout) (dom : Dom) (i : Nat) : Bool :=
  chainAll layout (isLinked dom) (i + 1) i

/-- Whether the element at reference `i` is in the document and carries class
`cls`. -/
def matchesClassIn (layout : Layout) (dom : Dom) (cls : String) (i : Nat) : Bool :=
  inDocument layout dom i &&
    match dom[i]? with
    | some e => e.classList.contains cls
    | none => false

/-- `document.querySelectorAll(sel)` on a nested page. -/
def querySelectorAllIn (layout : Layout) (dom : Dom) (sel : String) :
    Except DomError (List Nat) :=
  match parseClassSelector sel with
  | none => .error .syntaxError
  | some cls => .ok ((List.range dom.length).filter (matchesClassIn layout dom cls))

/-- The `DOMContentLoaded` handler (lines 2-9) on a nested page. -/
def onDOMContentLoadedIn (layout : Layout) (s : State) : Except DomError State := do
  let els ← querySelectorAllIn layout s.dom ".flash"
  pure (els.foldl (fun st el => setTimeout st (.startClosing el) 5000) s)

/-- The nested page right after the handler has run on it at load
(`onDOMContentLoadedIn_load` below shows that this is what the handler
returns). -/
def armedPageIn (layout : Layout) (dom : Dom) : State :=
  { now := 0
    dom := dom
    timers := ((List.range dom.length).filter (matchesClassIn layout dom "flash")).map
      (fun el => ⟨5000, .startClosing el⟩)
    fired := [] }

/-- What other scripts may do on a nested page: as before, and a new element
can be put inside an existing one. -/
inductive ExternalIn where
  | detach (el : Nat)
  | attach (el : Nat)
  | setStyle (el : Nat) (v : String)
  | create (e : Element) (place : Option Nat)
deriving DecidableEq, Repr

/-- The effect of an action on the store. -/
def ExternalIn.flat : ExternalIn → External
  | .detach el => .detach el
  | .attach el => .attach el
  | .setStyle el v => .setStyle el v
  | .create e _ => .create e

/-- The layout with `place` recorded for reference `n`, the next free one. -/
def setPlace (layout : Layout) (n : Nat) (place : Option Nat) : Layout :=
  (layout.take n ++ List.replicate (n - layout.length) none) ++ [place]

/-- The effect of an action on the layout: a new element gets its place. -/
def layoutAfter (layout : Layout) (dom : Dom) : ExternalIn → Layout
  | .create _ place => setPlace layout dom.length place
  | _ => layout

/-- A nested page: the page state and the layout of its store. -/
structure Page where
  state : State
  layout : Layout
deriving DecidableEq, Repr

/-- A script of external activity on a nested page. -/
def runScriptIn (p : Page) : List (Nat × ExternalIn) → Page
  | [] => p
  | (delay, a) :: rest =>
    let s1 := advanceTimersByTime p.state delay
    runScriptIn ⟨{ s1 with dom := applyExternal s1.dom a.flat }, layoutAfter p.layout s1.dom a⟩ rest

/-- The nested page as observed after the external script has run and `ms`
further milliseconds have passed. -/
def observeIn (p : Page) (script : List (Nat × ExternalIn)) (ms : Nat) : Page :=
  ⟨advanceTimersByTime (runScriptIn p script).state ms, (runScriptIn p script).layout⟩

/-- A notice with a message element inside it. -/
def nestedDom : Dom :=
  [⟨["flash", "success"], "", "", true⟩, ⟨["msg"], "Saved", "", true⟩]

/-- The layout of `nestedDom`: the message sits inside the notice. -/
def nestedLayout : Layout := [none, some 0]

/-- Whether no action of the script addresses the element at reference `j`. -/
def leavesAlone (script : List (Nat × ExternalIn)) (j : Nat) : Bool :=
  script.all (fun q => !q.2.flat.touches j)

/-- The script `demoScript` on a nested page, the new notice going directly
under the body. -/
def demoScriptIn : List (Nat × ExternalIn) :=
  [(2000, .detach 3), (3200, .create ⟨["flash"], "Late", "", false⟩ none)]

/-- A page with a single notice. -/
def oneNotice : Dom := [⟨["flash"], "Saved", "", true⟩]

/-- A notice that another script adds later. -/
def lateNotice : Element := ⟨["flash"], "Late", "", false⟩

/-- A notice inside another notice. -/
def twoNotices : Dom :=
  [⟨["flash", "group"], "", "", true⟩, ⟨["flash"], "Saved", "", true⟩]

/-! ## Observation of one element -/

/-- Everything the page state holds about the element at reference `i`: the
element itself, the pending timers whose closure captured it, and the fired
timers whose closure captured it. -/
structure View where
  elem : Option Element
  pending : List Timer
  done : List Timer
deriving DecidableEq, Repr

/-- Timers whose closure captured reference `i`. -/
def timersOf (i : Nat) (q : List Timer) : List Timer :=
  q.filter (fun tm => decide (tm.cb.target = i))

/-- The view of reference `i` in state `s`. -/
def view (i : Nat) (s : State) : View :=
  { elem := s.dom[i]?, pending := timersOf i s.timers, done := timersOf i s.fired }

/-- The assignment of line 5 on one element. -/
def Element.closing (e : Element) : Element :=
  { e with animation := slideOut }

/-- The effect of `remove()` on one element. -/
def Element.detached (e : Element) : Element :=
  { e with isConnected := false }

/-- What firing timer `tm` does to the view of the element its closure
captured. -/
def stepView (tm : Timer) (v : View) : View :=
  match tm.cb with
  | .startClosing el =>
    { elem := v.elem.map Element.closing
      pending := insertTimer ⟨tm.due + 300, .removeEl el⟩ v.pending
      done := v.done ++ [tm] }
  | .removeEl _ =>
    { elem := v.elem.map Element.detached, pending := v.pending, done := v.done ++ [tm] }

/-- The timer loop of a page that holds one element only: the single-notice
machine against which the loop over the whole page is compared. -/
def runView : Nat → View → Nat → View
  | 0, v, _ => v
  | fuel + 1, v, t =>
    match v.pending with
    | [] => v
    | tm :: rest =>
      if tm.due ≤ t then runView fuel (stepView tm ⟨v.elem, rest, v.done⟩) t else v

/-- The life of a notice that the controller manages and nothing else touches,
as a function of the clock: untouched with the 5000 ms timer pending, then
closing with the 300 ms timer pending, then detached with nothing pending. -/
def phaseView (e : Element) (i : Nat) (now : Nat) : View :=
  if now < 5000 then
    { elem := some e, pending := [⟨5000, .startClosing i⟩], done := [] }
  else if now < 5300 then
    { elem := some e.closing, pending := [⟨5300, .removeEl i⟩],
      done := [⟨5000, .startClosing i⟩] }
  else
    { elem := some e.closing.detached, pending := [],
      done := [⟨5000, .startClosing i⟩, ⟨5300, .removeEl i⟩] }

/-- Element `x` differs from element `y` at most by what the script does to an
element: `animation` set to the closing value, `isConnected` cleared. -/
def ChangedOnlyByController (x y : Element) : Prop :=
  x.classList = y.classList ∧ x.textContent = y.textContent ∧
    (x.animation = y.animation ∨ x.animation = slideOut) ∧
    (x.isConnected = y.isConnected ∨ x.isConnected = false)

/-- Store `a` holds the same elements as store `b`, each differing from its
counterpart at most by what the script does to an element. -/
def SameUpToController (a b : Dom) : Prop :=
  a.length = b.length ∧
    ∀ (i : Nat) (x : Element), a[i]? = some x → ∃ y, b[i]? = some y ∧ ChangedOnlyByController x y

/-! ## The notice as a state machine -/

/-- The three states of a notice. -/
inductive Phase where
  | idle
  | closing
  | removed
deriving DecidableEq, Repr

/-- The state a notice shows: removed when it is not in the document, closing
when it is and carries the closing value, idle otherwise. -/
def phaseOf (e : Element) : Phase :=
  if e.isConnected then (if e.animation = slideOut then .closing else .idle) else .removed

/-- Whether an external action writes an element's style. -/
def External.isSetStyle : External → Bool
  | .setStyle _ _ => true
  | _ => false

/-- The states the page `dom` can get into: the handler's result, then any
number of loop iterations (the next timer fires), clock movements, and actions
of other scripts that detach, attach or create elements. -/
inductive Reachable (dom : Dom) : State → Prop where
  | loaded {s : State} : onDOMContentLoaded (State.load dom) = .ok s → Reachable dom s
  | fire {s : State} {tm : Timer} {rest : List Timer} :
    Reachable dom s → s.timers = tm :: rest → Reachable dom (fireTimer s tm rest)
  | tick {s : State} (t : Nat) : Reachable dom s → Reachable dom { s with now := t }
  | external {s : State} (a : External) :
    Reachable dom s → a.isSetStyle = false →
    Reachable dom { s with dom := applyExternal s.dom a }

/-- Every pending timer is for an element of the store, and is a closing timer
due at 5000 ms or a removal timer due at 5300 ms for an element that already
carries the closing value. -/
def TimersWellFormed (s : State) : Prop :=
  ∀ tm ∈ s.timers,
    tm.cb.target < s.dom.length ∧
    ((∃ el, tm = ⟨5000, .startClosing el⟩) ∨
      (∃ el, tm = ⟨5300, .removeEl el⟩ ∧ ∀ x, s.dom[el]? = some x → x.animation = slideOut))

/-- The timers pending for a matched element at clock `now` after the handler
has run `k` times on the loaded page. -/
def pendingAt (k i now : Nat) : List Timer :=
  if now < 5000 then List.replicate k ⟨5000, .startClosing i⟩
  else if now < 5300 then List.replicate k ⟨5300, .removeEl i⟩
  else []

/-- A queue in firing order: due times never decrease. -/
def SortedQ (q : List Timer) : Prop :=
  q.Pairwise (fun a b => a.due ≤ b.due)

/-- Page `a` (handler run once) and page `b` (handler run twice) agree: same
store, same clock, and for every element either no timer pending on both pages
or the timers of its phase pending once on `a` and twice on `b`. -/
def DoubleRel (a b : State) : Prop :=
  a.dom = b.dom ∧ a.now = b.now ∧ SortedQ a.timers ∧ SortedQ b.timers ∧
    ∀ i : Nat,
      (timersOf i a.timers = [] ∧ timersOf i b.timers = []) ∨
      (timersOf i a.timers = pendingAt 1 i a.now ∧ timersOf i b.timers = pendingAt 2 i a.now)

end FlashDismiss

namespace FlashDismiss

/-! ## Queue lemmas -/

theorem insertTimer_of_lt {tm : Timer} {q : List Timer} (h : ∀ x ∈ q, tm.due < x.due) :
    insertTimer tm q = tm :: q := by
  cases q with
  | nil => rfl
  | cons y ys =>
    have hy : ¬ y.due ≤ tm.due := by
      have := h y (List.mem_cons_self _ _); omega
    simp only [insertTimer, hy, if_false]

theorem timersOf_insertTimer (i : Nat) (tm : Timer) {q : List Timer} (hq : SortedQ q) :
    timersOf i (insertTimer tm q) =
      if tm.cb.target = i then insertTimer tm (timersOf i q) else timersOf i q := by
  induction q with
  | nil => by_cases h : tm.cb.target = i <;> simp [timersOf, insertTimer, h]
  | cons x xs ih =>
    unfold SortedQ at hq ih
    rw [List.pairwise_cons] at hq
    have ih := ih hq.2
    unfold timersOf at ih ⊢
    by_cases hx : x.due ≤ tm.due
    · by_cases h : tm.cb.target = i <;> by_cases hxi : x.cb.target = i <;>
        simp only [insertTimer, hx, h, hxi, if_true, if_false, List.filter_cons, decide_True,
          decide_False] at ih ⊢ <;>
        simp [ih]
    · have hlt : ∀ y ∈ List.filter (fun tm => decide (tm.cb.target = i)) (x :: xs),
          tm.due < y.due := by
        intro y hy
        rcases List.mem_cons.mp (List.mem_of_mem_filter hy) with rfl | hy
        · omega
        · have := hq.1 y hy; omega
      by_cases h : tm.cb.target = i
      · simp only [insertTimer, hx, h, if_true, if_false]
        rw [insertTimer_of_lt hlt, List.filter_cons]
        simp [h]
      · simp only [insertTimer, hx, h, if_false]
        rw [List.filter_cons]
        simp [h]

theorem mem_insertTimer {tm x : Timer} {q : List Timer} :
    x ∈ insertTimer tm q ↔ x = tm ∨ x ∈ q := by
  induction q with
  | nil => simp [insertTimer]
  | cons y ys ih =>
    by_cases hy : y.due ≤ tm.due
    · simp only [insertTimer, hy, if_true, List.mem_cons, ih]; tauto
    · simp only [insertTimer, hy, if_false, List.mem_cons]

theorem sortedQ_insertTimer {tm : Timer} {q : List Timer} (h : SortedQ q) :
    SortedQ (insertTimer tm q) := by
  induction q with
  | nil => simp [insertTimer, SortedQ]
  | cons y ys ih =>
    unfold SortedQ at h ih ⊢
    rw [List.pairwise_cons] at h
    by_cases hy : y.due ≤ tm.due
    · simp only [insertTimer, hy, if_true, List.pairwise_cons]
      refine ⟨?_, ih h.2⟩
      intro b hb
      rcases mem_insertTimer.mp hb with rfl | hb
      · exact hy
      · exact h.1 b hb
    · simp only [insertTimer, hy, if_false, List.pairwise_cons]
      refine ⟨?_, h.1, h.2⟩
      intro b hb
      rcases List.mem_cons.mp hb with rfl | hb
      · omega
      · have := h.1 b hb; omega

theorem queueCost_insertTimer (tm : Timer) (q : List Timer) :
    queueCost (insertTimer tm q) = tm.cb.cost + queueCost q := by
  induction q with
  | nil => simp [insertTimer, queueCost]
  | cons y ys ih =>
    unfold queueCost at ih ⊢
    by_cases hy : y.due ≤ tm.due
    · simp only [insertTimer, hy, if_true, List.map_cons, List.sum_cons, ih]; omega
    · simp only [insertTimer, hy, if_false, List.map_cons, List.sum_cons]

theorem insertTimer_of_le {tm : Timer} {q : List Timer} (h : ∀ x ∈ q, x.due ≤ tm.due) :
    insertTimer tm q = q ++ [tm] := by
  induction q with
  | nil => rfl
  | cons y ys ih =>
    have hy : y.due ≤ tm.due := h y (List.mem_cons_self _ _)
    simp only [insertTimer, hy, if_true, List.cons_append]
    rw [ih (fun x hx => h x (List.mem_cons_of_mem _ hx))]

theorem cost_pos (cb : Callback) : 1 ≤ cb.cost := by
  cases cb <;> simp [Callback.cost]

theorem queueCost_cons (tm : Timer) (q : List Timer) :
    queueCost (tm :: q) = tm.cb.cost + queueCost q := by
  simp [queueCost]

end FlashDismiss

namespace FlashDismiss

/-! ## Store lemmas -/

theorem getElem?_setAnimation (dom : Dom) (el i : Nat) (v : String) :
    (setAnimation dom el v)[i]? =
      if el = i then dom[i]?.map (fun e => { e with animation := v }) else dom[i]? := by
  unfold setAnimation
  by_cases h : el = i
  · subst h; simp [List.getElem?_modify_eq]
  · simp [h, List.getElem?_modify_ne]

theorem removeFn_eq (e : Element) :
    (if e.isConnected then { e with isConnected := false } else e) = e.detached := by
  cases e with
  | mk c t a b => cases b <;> simp [Element.detached]

theorem getElem?_remove (dom : Dom) (el i : Nat) :
    (remove dom el)[i]? = if el = i then dom[i]?.map Element.detached else dom[i]? := by
  unfold remove
  by_cases h : el = i
  · subst h
    simp only [List.getElem?_modify_eq, if_true]
    cases dom[el]? with
    | none => rfl
    | some e => simp [removeFn_eq]
  · simp [h, List.getElem?_modify_ne]

theorem length_setAnimation (dom : Dom) (el : Nat) (v : String) :
    (setAnimation dom el v).length = dom.length := by
  simp [setAnimation]

theorem length_remove (dom : Dom) (el : Nat) : (remove dom el).length = dom.length := by
  simp [remove]

/-! ## One loop iteration, seen from one element -/

theorem view_fireTimer (i : Nat) (s : State) (tm : Timer) {rest : List Timer}
    (hrest : SortedQ rest) :
    view i (fireTimer s tm rest) =
      if tm.cb.target = i then
        stepView tm ⟨s.dom[i]?, timersOf i rest, timersOf i s.fired⟩
      else ⟨s.dom[i]?, timersOf i rest, timersOf i s.fired⟩ := by
  obtain ⟨due, cb⟩ := tm
  cases cb with
  | startClosing el =>
    by_cases h : el = i
    · subst h
      simp [view, fireTimer, runCallback, setTimeout, stepView, Callback.target,
        timersOf_insertTimer _ _ hrest, getElem?_setAnimation]
      simp [timersOf, List.filter_append, Callback.target]
      rfl
    · simp [view, fireTimer, runCallback, setTimeout, Callback.target, h,
        timersOf_insertTimer _ _ hrest, getElem?_setAnimation]
      simp [timersOf, List.filter_append, Callback.target, h]
  | removeEl el =>
    by_cases h : el = i
    · subst h
      simp [view, fireTimer, runCallback, stepView, Callback.target, getElem?_remove]
      simp [timersOf, List.filter_append, Callback.target]
    · simp [view, fireTimer, runCallback, Callback.target, h, getElem?_remove]
      simp [timersOf, List.filter_append, Callback.target, h]

theorem sortedQ_fireTimer (s : State) (tm : Timer) {rest : List Timer} (hrest : SortedQ rest) :
    SortedQ (fireTimer s tm rest).timers := by
  obtain ⟨due, cb⟩ := tm
  cases cb with
  | startClosing el => exact sortedQ_insertTimer hrest
  | removeEl el => exact hrest

theorem queueCost_fireTimer (s : State) (tm : Timer) (rest : List Timer) :
    queueCost (fireTimer s tm rest).timers + 1 = tm.cb.cost + queueCost rest := by
  obtain ⟨due, cb⟩ := tm
  cases cb with
  | startClosing el =>
    simp [fireTimer, runCallback, setTimeout, queueCost_insertTimer, Callback.cost]; omega
  | removeEl el => simp [fireTimer, runCallback, Callback.cost]; omega

theorem queueCost_stepView (tm : Timer) (v : View) :
    queueCost (stepView tm v).pending + 1 = tm.cb.cost + queueCost v.pending := by
  obtain ⟨due, cb⟩ := tm
  cases cb with
  | startClosing el => simp [stepView, queueCost_insertTimer, Callback.cost]; omega
  | removeEl el => simp [stepView, Callback.cost]; omega

theorem queueCost_eq_zero {q : List Timer} (h : queueCost q = 0) : q = [] := by
  cases q with
  | nil => rfl
  | cons x xs =>
    rw [queueCost_cons] at h
    have := cost_pos x.cb
    omega

theorem runView_nil (fuel : Nat) (v : View) (t : Nat) (h : v.pending = []) :
    runView fuel v t = v := by
  cases fuel with
  | zero => rfl
  | succ n => simp [runView, h]

theorem runView_not_due (fuel : Nat) (v : View) (t : Nat) (h : ∀ x ∈ v.pending, t < x.due) :
    runView fuel v t = v := by
  cases fuel with
  | zero => rfl
  | succ n =>
    cases hp : v.pending with
    | nil => simp [runView, hp]
    | cons tm rest =>
      have : ¬ tm.due ≤ t := by
        have := h tm (by rw [hp]; exact List.mem_cons_self _ _); omega
      simp [runView, hp, this]

end FlashDismiss

namespace FlashDismiss

/-! ## The loop over the page, seen from one element -/

theorem timersOf_cons (i : Nat) (tm : Timer) (rest : List Timer) :
    timersOf i (tm :: rest) =
      if tm.cb.target = i then tm :: timersOf i rest else timersOf i rest := by
  by_cases h : tm.cb.target = i <;> simp [timersOf, List.filter_cons, h]

theorem sortedQ_runTimers (fuel : Nat) (s : State) (t : Nat) (h : SortedQ s.timers) :
    SortedQ (runTimers fuel s t).timers := by
  induction fuel generalizing s with
  | zero => exact h
  | succ n ih =>
    cases hq : s.timers with
    | nil => simp [runTimers, hq, SortedQ]
    | cons tm rest =>
      have hrest : SortedQ rest := by
        unfold SortedQ at h ⊢
        rw [hq, List.pairwise_cons] at h
        exact h.2
      by_cases hd : tm.due ≤ t
      · simp only [runTimers, hq, hd, if_true]
        exact ih _ (sortedQ_fireTimer s tm hrest)
      · simp only [runTimers, hq, hd, if_false]
        rw [hq] at h
        exact h

/-- The fuel `advanceTimersByTime` gives the loop is enough: when the loop
stops, every timer still queued is due after the target time. -/
theorem runTimers_fires_all_due (t : Nat) (fuel : Nat) (s : State)
    (hs : SortedQ s.timers) (hf : queueCost s.timers ≤ fuel) :
    ∀ tm ∈ (runTimers fuel s t).timers, t < tm.due := by
  induction fuel generalizing s with
  | zero =>
    have hq : s.timers = [] := queueCost_eq_zero (Nat.le_zero.mp hf)
    intro tm htm
    simp only [runTimers, hq] at htm
    cases htm
  | succ n ih =>
    cases hq : s.timers with
    | nil =>
      intro tm htm
      simp only [runTimers, hq] at htm
      cases htm
    | cons x rest =>
      have hsorted := hs
      unfold SortedQ at hsorted
      rw [hq, List.pairwise_cons] at hsorted
      by_cases hd : x.due ≤ t
      · simp only [runTimers, hq, hd, if_true]
        apply ih _ (sortedQ_fireTimer s x hsorted.2)
        have hcost := queueCost_fireTimer s x rest
        rw [hq, queueCost_cons] at hf
        omega
      · simp only [runTimers, hq, hd, if_false]
        intro tm htm
        rcases List.mem_cons.mp htm with rfl | htm
        · omega
        · have := hsorted.1 tm htm
          omega

theorem advance_fires_all_due (s : State) (ms : Nat) (hs : SortedQ s.timers) :
    ∀ tm ∈ (advanceTimersByTime s ms).timers, s.now + ms < tm.due :=
  runTimers_fires_all_due (s.now + ms) (queueCost s.timers) s hs (Nat.le_refl _)

/-- Projection: the loop over the whole page acts on the view of reference `i`
exactly as the single-notice machine does. -/
theorem view_runTimers (i : Nat) (t : Nat) (fuel : Nat) (s : State) (fuel' : Nat)
    (hs : SortedQ s.timers) (hf : queueCost s.timers ≤ fuel)
    (hf' : queueCost (timersOf i s.timers) ≤ fuel') :
    view i (runTimers fuel s t) = runView fuel' (view i s) t := by
  induction fuel generalizing s fuel' with
  | zero =>
    have hq : s.timers = [] := queueCost_eq_zero (Nat.le_zero.mp hf)
    rw [runView_nil _ _ _ (by simp [view, hq, timersOf])]
    rfl
  | succ n ih =>
    cases hq : s.timers with
    | nil =>
      rw [runView_nil _ _ _ (by simp [view, hq, timersOf])]
      simp [runTimers, hq]
    | cons tm rest =>
      have hrest : SortedQ rest := by
        unfold SortedQ at hs ⊢
        rw [hq, List.pairwise_cons] at hs
        exact hs.2
      have hhead : ∀ x ∈ rest, tm.due ≤ x.due := by
        unfold SortedQ at hs
        rw [hq, List.pairwise_cons] at hs
        exact hs.1
      rw [hq, queueCost_cons] at hf
      rw [hq, timersOf_cons] at hf'
      have hcost := queueCost_fireTimer s tm rest
      by_cases hd : tm.due ≤ t
      · simp only [runTimers, hq, hd, if_true]
        by_cases hi : tm.cb.target = i
        · simp only [hi, if_true, queueCost_cons] at hf'
          have hpos := cost_pos tm.cb
          obtain ⟨g, rfl⟩ : ∃ g, fuel' = g + 1 := ⟨fuel' - 1, by omega⟩
          have hv : (view i s).pending = tm :: timersOf i rest := by
            simp [view, hq, timersOf_cons, hi]
          have hstep : view i (fireTimer s tm rest) =
              stepView tm ⟨(view i s).elem, timersOf i rest, (view i s).done⟩ := by
            rw [view_fireTimer i s tm hrest, if_pos hi]
            rfl
          have hc := queueCost_stepView tm ⟨(view i s).elem, timersOf i rest, (view i s).done⟩
          rw [ih (fireTimer s tm rest) g (sortedQ_fireTimer s tm hrest) (by omega)
            (by rw [show timersOf i (fireTimer s tm rest).timers
                  = (view i (fireTimer s tm rest)).pending from rfl, hstep]
                simp only at hc; omega)]
          simp only [runView, hv, hd, if_true, hstep]
        · simp only [hi, if_false] at hf'
          have hstep : view i (fireTimer s tm rest) = view i s := by
            rw [view_fireTimer i s tm hrest, if_neg hi]
            simp [view, hq, timersOf_cons, hi]
          rw [ih (fireTimer s tm rest) fuel' (sortedQ_fireTimer s tm hrest) (by omega)
            (by rw [show timersOf i (fireTimer s tm rest).timers
                  = (view i (fireTimer s tm rest)).pending from rfl, hstep]
                simpa [view, hq, timersOf_cons, hi] using hf'), hstep]
      · simp only [runTimers, hq, hd, if_false]
        rw [runView_not_due]
        intro x hx
        have hx' : x ∈ tm :: rest := by
          have : x ∈ timersOf i s.timers := hx
          rw [hq] at this
          exact List.mem_of_mem_filter this
        rcases List.mem_cons.mp hx' with rfl | hx'
        · omega
        · have := hhead x hx'; omega

theorem view_advance (i : Nat) (s : State) (ms : Nat) (hs : SortedQ s.timers) :
    view i (advanceTimersByTime s ms) =
      runView (queueCost (view i s).pending) (view i s) (s.now + ms) := by
  exact view_runTimers i (s.now + ms) (queueCost s.timers) s (queueCost (timersOf i s.timers)) hs
    (Nat.le_refl _) (Nat.le_refl _)

theorem sortedQ_advance (s : State) (ms : Nat) (hs : SortedQ s.timers) :
    SortedQ (advanceTimersByTime s ms).timers :=
  sortedQ_runTimers _ s _ hs

theorem now_advance (s : State) (ms : Nat) : (advanceTimersByTime s ms).now = s.now + ms := rfl

end FlashDismiss

namespace FlashDismiss

/-! ## The handler -/

theorem parse_flash : parseClassSelector ".flash" = some "flash" := by decide

theorem foldl_setTimeout (els : List Nat) (s : State)
    (h : ∀ x ∈ s.timers, x.due ≤ s.now + 5000) :
    els.foldl (fun st el => setTimeout st (.startClosing el) 5000) s =
      { s with timers := s.timers ++ els.map (fun el => ⟨s.now + 5000, .startClosing el⟩) } := by
  induction els generalizing s with
  | nil => simp
  | cons el els ih =>
    have hins : insertTimer ⟨s.now + 5000, .startClosing el⟩ s.timers =
        s.timers ++ [⟨s.now + 5000, .startClosing el⟩] := insertTimer_of_le h
    rw [List.foldl_cons, ih]
    · simp [setTimeout, hins]
    · intro x hx
      simp only [setTimeout, hins, List.mem_append, List.mem_singleton] at hx ⊢
      rcases hx with hx | rfl
      · exact h x hx
      · exact Nat.le_refl _

theorem onDOMContentLoaded_eq (s : State) (h : ∀ x ∈ s.timers, x.due ≤ s.now + 5000) :
    onDOMContentLoaded s = .ok
      ⟨s.now, s.dom,
        s.timers ++ ((List.range s.dom.length).filter (matchesClass s.dom "flash")).map
          (fun el => ⟨s.now + 5000, .startClosing el⟩),
        s.fired⟩ := by
  unfold onDOMContentLoaded querySelectorAll
  rw [parse_flash]
  simp only [bind, Except.bind, pure, Except.pure]
  rw [foldl_setTimeout _ _ h]

theorem filter_eq_of_nodup {l : List Nat} (hl : l.Nodup) (i : Nat) :
    l.filter (fun el => decide (el = i)) = if i ∈ l then [i] else [] := by
  induction l with
  | nil => simp
  | cons x xs ih =>
    rw [List.nodup_cons] at hl
    rw [List.filter_cons, ih hl.2]
    by_cases hx : x = i
    · subst hx; simp [hl.1]
    · have : ¬ i = x := fun h => hx h.symm
      simp [hx, this]

theorem timersOf_map_startClosing (i d : Nat) {els : List Nat} (hl : els.Nodup) :
    timersOf i (els.map (fun el => (⟨d, .startClosing el⟩ : Timer))) =
      if i ∈ els then [⟨d, .startClosing i⟩] else [] := by
  unfold timersOf
  rw [List.filter_map]
  have : ((fun tm : Timer => decide (tm.cb.target = i)) ∘
      fun el => (⟨d, .startClosing el⟩ : Timer)) = fun el => decide (el = i) := by
    funext el; simp [Callback.target]
  rw [this, filter_eq_of_nodup hl]
  split <;> simp

theorem nodup_flashRefs (dom : Dom) (cls : String) :
    ((List.range dom.length).filter (matchesClass dom cls)).Nodup :=
  (List.nodup_range _).filter _

theorem mem_flashRefs {dom : Dom} {cls : String} {i : Nat} :
    i ∈ (List.range dom.length).filter (matchesClass dom cls) ↔
      ∃ e, dom[i]? = some e ∧ e.isConnected = true ∧ cls ∈ e.classList := by
  rw [List.mem_filter, List.mem_range]
  unfold matchesClass
  constructor
  · rintro ⟨hlt, hm⟩
    rw [List.getElem?_eq_getElem hlt] at hm ⊢
    simp only [Bool.and_eq_true] at hm
    exact ⟨_, rfl, hm.1, by simpa using hm.2⟩
  · rintro ⟨e, he, hc, hcls⟩
    refine ⟨?_, ?_⟩
    · by_contra hlt
      rw [List.getElem?_eq_none (by omega)] at he
      cases he
    · simp [he, hc, hcls]

/-! ## The single-notice machine along the phases -/

theorem runView_phaseView (e : Element) (i : Nat) (now ms : Nat) :
    runView (queueCost (phaseView e i now).pending) (phaseView e i now) (now + ms) =
      phaseView e i (now + ms) := by
  unfold phaseView
  by_cases h1 : now < 5000
  · by_cases h2 : now + ms < 5000
    · have : ¬ 5000 ≤ now + ms := by omega
      simp [h1, h2, queueCost, Callback.cost, runView, this]
    · by_cases h3 : now + ms < 5300
      · have h4 : 5000 ≤ now + ms := by omega
        have h5 : ¬ 5300 ≤ now + ms := by omega
        simp [h1, h2, h3, queueCost, Callback.cost, runView, stepView, insertTimer, h4, h5]
      · have h4 : 5000 ≤ now + ms := by omega
        have h5 : 5300 ≤ now + ms := by omega
        simp [h1, h2, h3, queueCost, Callback.cost, runView, stepView, insertTimer, h4, h5]
  · by_cases h2 : now < 5300
    · have h3 : ¬ now + ms < 5000 := by omega
      by_cases h4 : now + ms < 5300
      · have h5 : ¬ 5300 ≤ now + ms := by omega
        simp [h1, h2, h3, h4, queueCost, Callback.cost, runView, h5]
      · have h5 : 5300 ≤ now + ms := by omega
        simp [h1, h2, h3, h4, queueCost, Callback.cost, runView, stepView, h5]
    · have h3 : ¬ now + ms < 5000 := by omega
      have h4 : ¬ now + ms < 5300 := by omega
      simp [h1, h2, h3, h4, queueCost, runView]

end FlashDismiss

namespace FlashDismiss

/-! ## External activity -/

theorem getElem?_applyExternal_of_untouched {dom : Dom} {a : External} {i : Nat}
    (ha : a.touches i = false) (hi : i < dom.length) :
    (applyExternal dom a)[i]? = dom[i]? := by
  cases a with
  | detach el =>
    have h : el ≠ i := by simpa [External.touches] using ha
    simp [applyExternal, getElem?_remove, h]
  | attach el =>
    have h : el ≠ i := by simpa [External.touches] using ha
    simp [applyExternal, List.getElem?_modify_ne _ _ h]
  | setStyle el v =>
    have h : el ≠ i := by simpa [External.touches] using ha
    simp [applyExternal, getElem?_setAnimation, h]
  | create e => simp [applyExternal, List.getElem?_append_left hi]

theorem lt_length_of_getElem?_eq_some {dom : Dom} {i : Nat} {e : Element}
    (h : dom[i]? = some e) : i < dom.length := by
  by_contra hlt
  rw [List.getElem?_eq_none (by omega)] at h
  cases h

theorem phaseView_elem (e : Element) (i now : Nat) :
    ∃ e', (phaseView e i now).elem = some e' := by
  unfold phaseView
  split
  · exact ⟨_, rfl⟩
  · split <;> exact ⟨_, rfl⟩

theorem now_runScript (s : State) (script : List (Nat × External)) :
    (runScript s script).now = s.now + (script.map Prod.fst).sum := by
  induction script generalizing s with
  | nil => simp [runScript]
  | cons p rest ih =>
    obtain ⟨delay, a⟩ := p
    simp only [runScript, List.map_cons, List.sum_cons]
    rw [ih]
    simp only [now_advance]
    omega

/-- A notice in phase with the clock stays in phase with the clock through any
external activity that leaves it alone. -/
theorem view_runScript (e : Element) (i : Nat) (script : List (Nat × External)) (s : State)
    (hs : SortedQ s.timers) (hv : view i s = phaseView e i s.now)
    (hu : ∀ p ∈ script, p.2.touches i = false) :
    view i (runScript s script) = phaseView e i (runScript s script).now ∧
      SortedQ (runScript s script).timers := by
  induction script generalizing s with
  | nil => exact ⟨hv, hs⟩
  | cons p rest ih =>
    obtain ⟨delay, a⟩ := p
    simp only [runScript]
    have h1 : view i (advanceTimersByTime s delay) = phaseView e i (s.now + delay) := by
      rw [view_advance i s delay hs, hv, runView_phaseView]
    have ha : a.touches i = false := hu (delay, a) (List.mem_cons_self _ _)
    obtain ⟨e', he'⟩ := phaseView_elem e i (s.now + delay)
    have hdom : (advanceTimersByTime s delay).dom[i]? = some e' := by
      have := congrArg View.elem h1
      rw [he'] at this
      exact this
    apply ih
    · exact sortedQ_advance s delay hs
    · have h2 : view i { advanceTimersByTime s delay with
          dom := applyExternal (advanceTimersByTime s delay).dom a } =
          view i (advanceTimersByTime s delay) := by
        simp only [view]
        rw [getElem?_applyExternal_of_untouched ha (lt_length_of_getElem?_eq_some hdom)]
      rw [h2, h1]
      rfl
    · exact fun p hp => hu p (List.mem_cons_of_mem _ hp)

/-- The view of a matched element right after the handler has run on the
loaded page. -/
theorem view_loaded {dom : Dom} {i : Nat} {e : Element} (he : dom[i]? = some e)
    (hconn : e.isConnected = true) (hcls : "flash" ∈ e.classList) :
    view i (armedPage dom) = phaseView e i 0 := by
  have hmem : i ∈ (List.range dom.length).filter (matchesClass dom "flash") :=
    mem_flashRefs.mpr ⟨e, he, hconn, hcls⟩
  simp only [view, armedPage, timersOf_map_startClosing i _ (nodup_flashRefs dom "flash"), hmem,
    if_true, he]
  simp [phaseView, timersOf]

theorem sortedQ_map_const (d : Nat) (f : Nat → Callback) (els : List Nat) :
    SortedQ (els.map (fun el => (⟨d, f el⟩ : Timer))) := by
  unfold SortedQ
  rw [List.pairwise_map]
  exact List.pairwise_of_forall (fun _ _ => Nat.le_refl _)

theorem onDOMContentLoaded_load (dom : Dom) :
    onDOMContentLoaded (State.load dom) = .ok (armedPage dom) := by
  rw [onDOMContentLoaded_eq _ (by simp [State.load])]
  simp [State.load, armedPage]

theorem sortedQ_armedPage (dom : Dom) : SortedQ (armedPage dom).timers :=
  sortedQ_map_const _ _ _

end FlashDismiss

namespace FlashDismiss

/-! ## A managed notice under observation -/

theorem now_observe (s : State) (script : List (Nat × External)) (ms : Nat) :
    (observe s script ms).now = s.now + (script.map Prod.fst).sum + ms := by
  simp [observe, now_advance, now_runScript]

theorem view_observe (e : Element) (i : Nat) (script : List (Nat × External)) (ms : Nat)
    (s : State) (hs : SortedQ s.timers) (hv : view i s = phaseView e i s.now)
    (hu : ∀ p ∈ script, p.2.touches i = false) :
    view i (observe s script ms) = phaseView e i (observe s script ms).now := by
  obtain ⟨h1, h2⟩ := view_runScript e i script s hs hv hu
  unfold observe
  rw [view_advance i _ ms h2, h1, runView_phaseView]
  rfl

/-- The view of an element the handler matched, at any later observation. -/
theorem view_managed {dom : Dom} {i : Nat} {e : Element} (script : List (Nat × External))
    (ms : Nat) (he : dom[i]? = some e) (hconn : e.isConnected = true)
    (hcls : "flash" ∈ e.classList) (hu : ∀ p ∈ script, p.2.touches i = false) :
    ∃ s0, onDOMContentLoaded (State.load dom) = .ok s0 ∧
      (observe s0 script ms).now = (script.map Prod.fst).sum + ms ∧
      view i (observe s0 script ms) = phaseView e i ((script.map Prod.fst).sum + ms) := by
  refine ⟨_, onDOMContentLoaded_load dom, ?_, ?_⟩
  · simp [now_observe, armedPage]
  · have h := view_observe e i script ms _ (sortedQ_armedPage dom)
      (view_loaded he hconn hcls) hu
    rw [h, now_observe]
    simp [armedPage]

/-! ## C1 -/

/-- C1: for every page and every element matching `.flash` when the handler
runs at time 0, whatever other scripts do to other elements: observed at a time
before 5000 ms the element is exactly as it was (in the document, style not
set); observed at a time from 5000 ms to before 5300 ms it is in the document
with `animation` set to the closing value; observed at 5300 ms or later it is
not in the document. -/
theorem flash_timeline (dom : Dom) (i : Nat) (e : Element) (script : List (Nat × External))
    (ms : Nat) (he : dom[i]? = some e) (hconn : e.isConnected = true)
    (hcls : "flash" ∈ e.classList) (hu : ∀ p ∈ script, p.2.touches i = false) :
    ∃ s0, onDOMContentLoaded (State.load dom) = .ok s0 ∧
      (observe s0 script ms).now = (script.map Prod.fst).sum + ms ∧
      ((observe s0 script ms).now < 5000 → (observe s0 script ms).dom[i]? = some e) ∧
      (5000 ≤ (observe s0 script ms).now → (observe s0 script ms).now < 5300 →
        (observe s0 script ms).dom[i]? =
          some { e with animation := "slideOut .3s ease forwards", isConnected := true }) ∧
      (5300 ≤ (observe s0 script ms).now →
        (observe s0 script ms).dom[i]? =
          some { e with animation := "slideOut .3s ease forwards", isConnected := false }) := by
  obtain ⟨s0, h0, hnow, hv⟩ := view_managed script ms he hconn hcls hu
  refine ⟨s0, h0, hnow, ?_, ?_, ?_⟩
  · intro h
    rw [hnow] at h
    have := congrArg View.elem hv
    simpa [view, phaseView, h] using this
  · intro h1 h2
    rw [hnow] at h1 h2
    have := congrArg View.elem hv
    have h3 : ¬ (script.map Prod.fst).sum + ms < 5000 := by omega
    rw [show (view i (observe s0 script ms)).elem = (observe s0 script ms).dom[i]? from rfl] at this
    rw [this]
    simp [phaseView, h2, h3, Element.closing, slideOut, hconn]
  · intro h1
    rw [hnow] at h1
    have := congrArg View.elem hv
    have h3 : ¬ (script.map Prod.fst).sum + ms < 5000 := by omega
    have h4 : ¬ (script.map Prod.fst).sum + ms < 5300 := by omega
    rw [show (view i (observe s0 script ms)).elem = (observe s0 script ms).dom[i]? from rfl] at this
    rw [this]
    simp [phaseView, h3, h4, Element.closing, Element.detached, slideOut]

/-- The first notice of the example page, observed 5200 ms after load while
other scripts act on other elements, is in the document and closing. -/
theorem flash_timeline_witness :
    ∃ s0, onDOMContentLoaded (State.load demoDom) = .ok s0 ∧
      (observe s0 demoScript 0).now = 5200 ∧
      (observe s0 demoScript 0).dom[0]? =
        some ⟨["flash", "success"], "Saved", "slideOut .3s ease forwards", true⟩ := by
  obtain ⟨s0, h0, hnow, _, h2, _⟩ :=
    flash_timeline demoDom 0 ⟨["flash", "success"], "Saved", "", true⟩ demoScript 0
      (by decide) (by decide) (by decide) (by decide)
  have hn : (observe s0 demoScript 0).now = 5200 := by rw [hnow]; decide
  exact ⟨s0, h0, hn, h2 (by omega) (by omega)⟩

end FlashDismiss

namespace FlashDismiss

/-! ## C2 -/

/-- C2: on a page with nothing scheduled, at any clock value `t0`, the handler
raises no error and leaves exactly one timer per element that `.flash` matches
(the connected elements carrying the class, each listed once), in document
order, each due 5000 ms after `t0`, each with the closing callback of its own
element; it changes neither the store, the clock nor the history, so with no
match the queue stays empty and the page is unchanged. -/
theorem handler_schedules_one_timer_per_notice (dom : Dom) (t0 : Nat) :
    ∃ els s, querySelectorAll dom ".flash" = .ok els ∧
      onDOMContentLoaded ⟨t0, dom, [], []⟩ = .ok s ∧
      (∀ i, i ∈ els ↔ ∃ e, dom[i]? = some e ∧ e.isConnected = true ∧ "flash" ∈ e.classList) ∧
      els.Nodup ∧
      s.timers = els.map (fun el => ⟨t0 + 5000, .startClosing el⟩) ∧
      s.timers.length = els.length ∧
      s.dom = dom ∧ s.now = t0 ∧ s.fired = [] ∧
      (els = [] → s = ⟨t0, dom, [], []⟩) := by
  refine ⟨(List.range dom.length).filter (matchesClass dom "flash"), _, ?_,
    onDOMContentLoaded_eq ⟨t0, dom, [], []⟩ (by simp), fun i => mem_flashRefs,
    nodup_flashRefs dom "flash", by simp, by simp, rfl, rfl, rfl, ?_⟩
  · unfold querySelectorAll
    rw [parse_flash]
  · intro h
    simp only [List.nil_append] at h ⊢
    rw [h]
    rfl

/-- On the example page the handler arms two timers, for references 0 and 3. -/
theorem handler_schedules_witness :
    onDOMContentLoaded (State.load demoDom) =
      .ok ⟨0, demoDom, [⟨5000, .startClosing 0⟩, ⟨5000, .startClosing 3⟩], []⟩ := by
  obtain ⟨els, s, h1, h2, _, _, h5, _, h7, h8, h9, _⟩ :=
    handler_schedules_one_timer_per_notice demoDom 0
  have hels : els = [0, 3] := by
    have : querySelectorAll demoDom ".flash" = .ok [0, 3] := by rfl
    rw [this] at h1
    cases h1
    rfl
  subst hels
  have hs : s = ⟨0, demoDom, [⟨5000, .startClosing 0⟩, ⟨5000, .startClosing 3⟩], []⟩ := by
    cases s
    simp only at h5 h7 h8 h9
    subst h5 h7 h8 h9
    rfl
  rw [← hs]
  exact h2

/-! ## C8 -/

theorem parse_slideOut :
    parseAnimation "slideOut .3s ease forwards" = some ⟨"slideOut", 300, "ease", "forwards"⟩ := by
  decide

/-- C8: when the closing timer of element `el` fires (due at `due`, 5000 ms
after the handler), the element's `animation` becomes exactly
`slideOut .3s ease forwards`, which reads as the effect `slideOut` lasting
300 ms with easing `ease` and fill mode `forwards`; every other element, the
other fields of the element and the size of the store are unchanged; and the
one timer added to the queue is the removal of `el`, due after a delay equal to
that duration, 300 ms. -/
theorem closing_mark (s : State) (due el : Nat) (rest : List Timer) :
    (fireTimer s ⟨due, .startClosing el⟩ rest).dom[el]? =
        s.dom[el]?.map (fun e => { e with animation := "slideOut .3s ease forwards" }) ∧
      (∀ j, j ≠ el → (fireTimer s ⟨due, .startClosing el⟩ rest).dom[j]? = s.dom[j]?) ∧
      (fireTimer s ⟨due, .startClosing el⟩ rest).dom.length = s.dom.length ∧
      (∃ a, parseAnimation "slideOut .3s ease forwards" = some a ∧
        a.name = "slideOut" ∧ a.durationMs = 300 ∧ a.easing = "ease" ∧ a.fillMode = "forwards" ∧
        (fireTimer s ⟨due, .startClosing el⟩ rest).timers =
          insertTimer ⟨due + a.durationMs, .removeEl el⟩ rest) ∧
      (fireTimer s ⟨due, .startClosing el⟩ rest).timers =
        insertTimer ⟨due + 300, .removeEl el⟩ rest := by
  refine ⟨?_, ?_, ?_, ⟨_, parse_slideOut, rfl, rfl, rfl, rfl, rfl⟩, rfl⟩
  · simp [fireTimer, runCallback, setTimeout, getElem?_setAnimation, slideOut]
  · intro j hj
    have : ¬ el = j := fun h => hj h.symm
    simp [fireTimer, runCallback, setTimeout, getElem?_setAnimation, this]
  · simp [fireTimer, runCallback, setTimeout, length_setAnimation]

end FlashDismiss

namespace FlashDismiss

/-! ## Removal history and detached elements -/

theorem filter_removeEl_timersOf (i : Nat) (q : List Timer) :
    q.filter (fun tm => decide (tm.cb = .removeEl i)) =
      (timersOf i q).filter (fun tm => decide (tm.cb = .removeEl i)) := by
  unfold timersOf
  rw [List.filter_filter]
  congr 1
  funext tm
  by_cases h : tm.cb = .removeEl i
  · simp [h, Callback.target]
  · simp [h]

theorem runScript_append (s : State) (a b : List (Nat × External)) :
    runScript s (a ++ b) = runScript (runScript s a) b := by
  induction a generalizing s with
  | nil => rfl
  | cons p rest ih =>
    obtain ⟨delay, x⟩ := p
    simp only [List.cons_append, runScript]
    exact ih _

theorem phaseView_detached (e : Element) (i t : Nat) :
    (⟨(phaseView e i t).elem.map Element.detached, (phaseView e i t).pending,
      (phaseView e i t).done⟩ : View) = phaseView e.detached i t := by
  unfold phaseView
  by_cases h1 : t < 5000
  · simp [h1]
  · by_cases h2 : t < 5300
    · simp [h1, h2, Element.closing, Element.detached]
    · simp [h1, h2, Element.closing, Element.detached]

theorem remove_eq_self {dom : Dom} {i : Nat}
    (h : ∀ x, dom[i]? = some x → x.isConnected = false) : remove dom i = dom := by
  apply List.ext_getElem?
  intro j
  rw [getElem?_remove]
  by_cases hj : i = j
  · subst hj
    simp only [if_true]
    cases hx : dom[i]? with
    | none => rfl
    | some x =>
      have hc := h x hx
      cases x with
      | mk c t a b =>
        simp only at hc
        subst hc
        rfl
  · simp [hj]

/-- The view of a matched element that other code detaches at some point, at
any later observation. -/
theorem view_detached {dom : Dom} {i : Nat} {e : Element}
    (pre post : List (Nat × External)) (d ms : Nat) (he : dom[i]? = some e)
    (hconn : e.isConnected = true) (hcls : "flash" ∈ e.classList)
    (hpre : ∀ p ∈ pre, p.2.touches i = false) (hpost : ∀ p ∈ post, p.2.touches i = false) :
    ∃ s0, onDOMContentLoaded (State.load dom) = .ok s0 ∧
      view i (observe s0 (pre ++ (d, .detach i) :: post) ms) =
        phaseView e.detached i (observe s0 (pre ++ (d, .detach i) :: post) ms).now := by
  refine ⟨_, onDOMContentLoaded_load dom, ?_⟩
  obtain ⟨h1, h2⟩ := view_runScript e i pre _ (sortedQ_armedPage dom)
    (view_loaded he hconn hcls) hpre
  unfold observe
  rw [runScript_append]
  simp only [runScript]
  generalize runScript _ pre = s1 at h1 h2 ⊢
  have h3 : view i (advanceTimersByTime s1 d) = phaseView e i (s1.now + d) := by
    rw [view_advance i s1 d h2, h1, runView_phaseView]
  have h4 : view i { advanceTimersByTime s1 d with
      dom := applyExternal (advanceTimersByTime s1 d).dom (.detach i) } =
      phaseView e.detached i (s1.now + d) := by
    rw [← phaseView_detached, ← h3]
    simp [view, applyExternal, getElem?_remove]
  exact view_observe e.detached i post ms _ (sortedQ_advance s1 d h2) h4 hpost

end FlashDismiss

namespace FlashDismiss

/-! ## C3 -/

/-- C3: take any element the handler matched and let other code detach it at
any moment (say after 2000 ms), while other scripts do what they like to other
elements.  Both timers of the element still fire, the closing one at 5000 ms
and the removal one at 5300 ms, and nothing stays queued for it; the closing
callback only sets the style of the detached element; the element stays
detached; and firing the removal callback on the observed page leaves the store
exactly as it was. -/
theorem timers_of_detached_notice_are_harmless (dom : Dom) (i : Nat) (e : Element)
    (pre post : List (Nat × External)) (d ms : Nat) (he : dom[i]? = some e)
    (hconn : e.isConnected = true) (hcls : "flash" ∈ e.classList)
    (hpre : ∀ p ∈ pre, p.2.touches i = false) (hpost : ∀ p ∈ post, p.2.touches i = false) :
    ∃ s0 s, onDOMContentLoaded (State.load dom) = .ok s0 ∧
      s = observe s0 (pre ++ (d, .detach i) :: post) ms ∧
      s.now = (pre.map Prod.fst).sum + d + (post.map Prod.fst).sum + ms ∧
      (5000 ≤ s.now → ⟨5000, .startClosing i⟩ ∈ s.fired) ∧
      (5300 ≤ s.now → ⟨5300, .removeEl i⟩ ∈ s.fired ∧ ∀ tm ∈ s.timers, tm.cb.target ≠ i) ∧
      (s.now < 5000 → s.dom[i]? = some { e with isConnected := false }) ∧
      (5000 ≤ s.now → s.dom[i]? =
        some { e with animation := "slideOut .3s ease forwards", isConnected := false }) ∧
      (∀ due rest, (fireTimer s ⟨due, .removeEl i⟩ rest).dom = s.dom) := by
  obtain ⟨s0, h0, hv⟩ := view_detached pre post d ms he hconn hcls hpre hpost
  have hs0 : s0.now = 0 := by
    have := onDOMContentLoaded_load dom
    rw [h0] at this
    cases this
    rfl
  refine ⟨s0, _, h0, rfl, ?_, ?_, ?_, ?_, ?_, ?_⟩
  · rw [now_observe, hs0]
    simp only [List.map_append, List.map_cons, List.sum_append, List.sum_cons]
    omega
  · intro h
    have hd := congrArg View.done hv
    have hm : (⟨5000, .startClosing i⟩ : Timer) ∈
        (phaseView e.detached i (observe s0 (pre ++ (d, .detach i) :: post) ms).now).done := by
      unfold phaseView
      have : ¬ (observe s0 (pre ++ (d, .detach i) :: post) ms).now < 5000 := by omega
      simp only [this, if_false]
      split <;> simp
    rw [← hd] at hm
    exact List.mem_of_mem_filter hm
  · intro h
    have h1 : ¬ (observe s0 (pre ++ (d, .detach i) :: post) ms).now < 5000 := by omega
    have h2 : ¬ (observe s0 (pre ++ (d, .detach i) :: post) ms).now < 5300 := by omega
    have hd := congrArg View.done hv
    have hp := congrArg View.pending hv
    simp only [phaseView, h1, h2, if_false] at hd hp
    constructor
    · have hm : (⟨5300, .removeEl i⟩ : Timer) ∈
          (view i (observe s0 (pre ++ (d, .detach i) :: post) ms)).done := by
        rw [hd]; simp
      exact List.mem_of_mem_filter hm
    · intro tm htm hi
      have hm : tm ∈ (view i (observe s0 (pre ++ (d, .detach i) :: post) ms)).pending := by
        simp only [view, timersOf, List.mem_filter]
        exact ⟨htm, by simpa using hi⟩
      rw [hp] at hm
      cases hm
  · intro h
    have := congrArg View.elem hv
    simpa [view, phaseView, h, Element.detached] using this
  · intro h
    have h1 : ¬ (observe s0 (pre ++ (d, .detach i) :: post) ms).now < 5000 := by omega
    have := congrArg View.elem hv
    rw [show (view i (observe s0 (pre ++ (d, .detach i) :: post) ms)).elem =
      (observe s0 (pre ++ (d, .detach i) :: post) ms).dom[i]? from rfl] at this
    rw [this]
    unfold phaseView
    simp only [h1, if_false]
    split <;> simp [Element.closing, Element.detached, slideOut]
  · intro due rest
    have := congrArg View.elem hv
    rw [show (view i (observe s0 (pre ++ (d, .detach i) :: post) ms)).elem =
      (observe s0 (pre ++ (d, .detach i) :: post) ms).dom[i]? from rfl] at this
    simp only [fireTimer, runCallback]
    apply remove_eq_self
    intro x hx
    rw [this] at hx
    unfold phaseView at hx
    split at hx
    · cases hx; rfl
    · split at hx <;> (cases hx; rfl)

/-- On the example page the second notice is detached by another script at
2000 ms; observed at 5400 ms both its timers have fired and it is still
detached. -/
theorem timers_of_detached_notice_witness :
    ∃ s0 s, onDOMContentLoaded (State.load demoDom) = .ok s0 ∧
      s = observe s0 demoScript 200 ∧
      ⟨5000, .startClosing 3⟩ ∈ s.fired ∧ ⟨5300, .removeEl 3⟩ ∈ s.fired ∧
      s.dom[3]? = some ⟨["flash", "error"], "Failed", "slideOut .3s ease forwards", false⟩ := by
  obtain ⟨s0, s, h0, hs, hnow, h1, h2, _, h4, _⟩ :=
    timers_of_detached_notice_are_harmless demoDom 3 ⟨["flash", "error"], "Failed", "fadeIn 1s", true⟩
      [] [(3200, .create ⟨["flash"], "Late", "", false⟩)] 2000 200
      (by decide) (by decide) (by decide) (by decide) (by decide)
  have hn : s.now = 5400 := by rw [hnow]; decide
  exact ⟨s0, s, h0, hs, h1 (by omega), (h2 (by omega)).1, h4 (by omega)⟩

end FlashDismiss

namespace FlashDismiss

/-! ## Phases of a managed notice -/

theorem phaseView_elem_index (e : Element) (i j t : Nat) :
    (phaseView e i t).elem = (phaseView e j t).elem := by
  unfold phaseView
  split
  · rfl
  · split <;> rfl

theorem phaseView_done (e : Element) (i t : Nat) :
    (phaseView e i t).done =
      if t < 5000 then [] else if t < 5300 then [⟨5000, .startClosing i⟩]
      else [⟨5000, .startClosing i⟩, ⟨5300, .removeEl i⟩] := by
  unfold phaseView
  split
  · rfl
  · split <;> rfl

theorem phaseView_pending (e : Element) (i t : Nat) :
    (phaseView e i t).pending =
      if t < 5000 then [⟨5000, .startClosing i⟩] else if t < 5300 then [⟨5300, .removeEl i⟩]
      else [] := by
  unfold phaseView
  split
  · rfl
  · split <;> rfl

theorem phaseView_connected (e : Element) (i t : Nat) (hconn : e.isConnected = true) :
    (phaseView e i t).elem.map (fun x => x.isConnected) = some (decide (t < 5300)) := by
  unfold phaseView
  by_cases h1 : t < 5000
  · have : t < 5300 := by omega
    simp [h1, this, hconn]
  · by_cases h2 : t < 5300
    · simp [h1, h2, hconn, Element.closing]
    · simp [h1, h2, Element.closing, Element.detached]

end FlashDismiss

namespace FlashDismiss

/-! ## C7 -/

theorem runView_timers_congr (fuel : Nat) (v w : View) (t : Nat)
    (hp : v.pending = w.pending) (hd : v.done = w.done) :
    (runView fuel v t).pending = (runView fuel w t).pending ∧
      (runView fuel v t).done = (runView fuel w t).done := by
  induction fuel generalizing v w with
  | zero => exact ⟨hp, hd⟩
  | succ n ih =>
    cases hq : w.pending with
    | nil =>
      rw [runView_nil _ v t (hp.trans hq), runView_nil _ w t hq]
      exact ⟨hp, hd⟩
    | cons tm rest =>
      have hq' : v.pending = tm :: rest := hp.trans hq
      by_cases hdue : tm.due ≤ t
      · simp only [runView, hq, hq', hdue, if_true]
        apply ih
        · obtain ⟨due, cb⟩ := tm
          cases cb <;> simp [stepView]
        · obtain ⟨due, cb⟩ := tm
          cases cb <;> simp [stepView, hd]
      · have e1 : runView (n + 1) v t = v := by simp only [runView, hq', hdue, if_false]
        have e2 : runView (n + 1) w t = w := by simp only [runView, hq, hdue, if_false]
        rw [e1, e2]
        exact ⟨hp, hd⟩

/-- The timers of a matched element follow the clock under any external
activity, also activity on the element itself. -/
theorem timers_runScript (e : Element) (i : Nat) (script : List (Nat × External)) (s : State)
    (hs : SortedQ s.timers)
    (hp : timersOf i s.timers = (phaseView e i s.now).pending)
    (hd : timersOf i s.fired = (phaseView e i s.now).done) :
    timersOf i (runScript s script).timers = (phaseView e i (runScript s script).now).pending ∧
      timersOf i (runScript s script).fired = (phaseView e i (runScript s script).now).done ∧
      SortedQ (runScript s script).timers := by
  induction script generalizing s with
  | nil => exact ⟨hp, hd, hs⟩
  | cons p rest ih =>
    obtain ⟨delay, a⟩ := p
    simp only [runScript]
    have hv := view_advance i s delay hs
    obtain ⟨c1, c2⟩ := runView_timers_congr (queueCost (view i s).pending) (view i s)
      (phaseView e i s.now) (s.now + delay) hp hd
    have hc : queueCost (view i s).pending = queueCost (phaseView e i s.now).pending :=
      congrArg queueCost hp
    rw [hc, runView_phaseView] at c1 c2
    rw [hc] at hv
    apply ih
    · exact sortedQ_advance s delay hs
    · exact (congrArg View.pending hv).trans c1
    · exact (congrArg View.done hv).trans c2

theorem timers_observe {dom : Dom} {i : Nat} {e : Element} (script : List (Nat × External))
    (ms : Nat) (he : dom[i]? = some e) (hconn : e.isConnected = true)
    (hcls : "flash" ∈ e.classList) :
    timersOf i (observe (armedPage dom) script ms).timers =
        (phaseView e i ((script.map Prod.fst).sum + ms)).pending ∧
      timersOf i (observe (armedPage dom) script ms).fired =
        (phaseView e i ((script.map Prod.fst).sum + ms)).done := by
  have h0 := view_loaded he hconn hcls
  obtain ⟨h1, h2, h3⟩ := timers_runScript e i script (armedPage dom) (sortedQ_armedPage dom)
    (congrArg View.pending h0) (congrArg View.done h0)
  have hnow : (runScript (armedPage dom) script).now = (script.map Prod.fst).sum := by
    rw [now_runScript]
    simp [armedPage]
  rw [hnow] at h1 h2
  have hv := view_advance i (runScript (armedPage dom) script) ms h3
  obtain ⟨c1, c2⟩ := runView_timers_congr
    (queueCost (view i (runScript (armedPage dom) script)).pending)
    (view i (runScript (armedPage dom) script))
    (phaseView e i (script.map Prod.fst).sum) ((script.map Prod.fst).sum + ms) h1 h2
  have hc : queueCost (view i (runScript (armedPage dom) script)).pending =
      queueCost (phaseView e i (script.map Prod.fst).sum).pending := congrArg queueCost h1
  rw [hc, runView_phaseView] at c1 c2
  rw [hc, hnow] at hv
  exact ⟨(congrArg View.pending hv).trans c1, (congrArg View.done hv).trans c2⟩

/-- C7: for every element the handler matched, whatever other scripts do, at
every observation at most one removal callback for it exists in the queue and
the history together; before 5300 ms (5000 ms + 300 ms) none has run; from
5300 ms on exactly one has run, at 5300 ms, and none is pending.  When nothing
else touches the element it is in the document at every observation before
5300 ms and out of it at every observation from 5300 ms on. -/
theorem notice_removed_exactly_once (dom : Dom) (i : Nat) (e : Element)
    (script : List (Nat × External)) (ms : Nat) (he : dom[i]? = some e)
    (hconn : e.isConnected = true) (hcls : "flash" ∈ e.classList) :
    ∃ s0 s, onDOMContentLoaded (State.load dom) = .ok s0 ∧
      s = observe s0 script ms ∧
      s.now = (script.map Prod.fst).sum + ms ∧
      ((s.timers ++ s.fired).filter (fun tm => decide (tm.cb = .removeEl i))).length ≤ 1 ∧
      (s.now < 5300 → s.fired.filter (fun tm => decide (tm.cb = .removeEl i)) = []) ∧
      (5300 ≤ s.now →
        s.fired.filter (fun tm => decide (tm.cb = .removeEl i)) = [⟨5300, .removeEl i⟩] ∧
        s.timers.filter (fun tm => decide (tm.cb = .removeEl i)) = []) ∧
      ((∀ p ∈ script, p.2.touches i = false) →
        (s.now < 5300 → s.dom[i]?.map (fun x => x.isConnected) = some true) ∧
        (5300 ≤ s.now → s.dom[i]?.map (fun x => x.isConnected) = some false)) := by
  obtain ⟨hp, hd⟩ := timers_observe script ms he hconn hcls
  have hnow : (observe (armedPage dom) script ms).now = (script.map Prod.fst).sum + ms := by
    rw [now_observe]
    simp [armedPage]
  rw [phaseView_done] at hd
  rw [phaseView_pending] at hp
  refine ⟨_, _, onDOMContentLoaded_load dom, rfl, hnow, ?_, ?_, ?_, ?_⟩
  · rw [List.filter_append, filter_removeEl_timersOf i (observe (armedPage dom) script ms).timers,
      filter_removeEl_timersOf i (observe (armedPage dom) script ms).fired, hd, hp]
    by_cases h1 : (script.map Prod.fst).sum + ms < 5000
    · simp [h1]
    · by_cases h2 : (script.map Prod.fst).sum + ms < 5300
      · simp [h1, h2]
      · simp [h1, h2]
  · intro h
    rw [hnow] at h
    rw [filter_removeEl_timersOf, hd]
    by_cases h1 : (script.map Prod.fst).sum + ms < 5000
    · simp [h1]
    · simp [h1, h]
  · intro h
    rw [hnow] at h
    have h1 : ¬ (script.map Prod.fst).sum + ms < 5000 := by omega
    have h2 : ¬ (script.map Prod.fst).sum + ms < 5300 := by omega
    refine ⟨?_, ?_⟩
    · rw [filter_removeEl_timersOf, hd]
      simp [h1, h2]
    · rw [filter_removeEl_timersOf, hp]
      simp [h1, h2]
  · intro hu
    obtain ⟨s0, h0, _, hv⟩ := view_managed script ms he hconn hcls hu
    have hs0 : s0 = armedPage dom := by
      rw [onDOMContentLoaded_load] at h0
      cases h0
      rfl
    subst hs0
    have hel : (observe (armedPage dom) script ms).dom[i]? =
        (phaseView e i ((script.map Prod.fst).sum + ms)).elem := congrArg View.elem hv
    rw [hnow, hel, phaseView_connected _ _ _ hconn]
    constructor
    · intro h
      simp [h]
    · intro h
      have h2 : ¬ (script.map Prod.fst).sum + ms < 5300 := by omega
      simp [h2]

/-- The "Saved" notice of the example page at 5400 ms: exactly one removal
callback has run for it, at 5300 ms, and it is out of the document. -/
theorem notice_removed_exactly_once_witness :
    ∃ s0, onDOMContentLoaded (State.load demoDom) = .ok s0 ∧
      (observe s0 demoScript 200).fired.filter (fun tm => decide (tm.cb = .removeEl 0)) =
        [⟨5300, .removeEl 0⟩] ∧
      (observe s0 demoScript 200).dom[0]?.map (fun x => x.isConnected) = some false := by
  obtain ⟨s0, s, h0, hs, hnow, _, _, h3, h4⟩ :=
    notice_removed_exactly_once demoDom 0 ⟨["flash", "success"], "Saved", "", true⟩ demoScript 200
      (by decide) (by decide) (by decide)
  subst hs
  have hn : 5300 ≤ (observe s0 demoScript 200).now := by rw [hnow]; decide
  exact ⟨s0, h0, (h3 hn).1, (h4 (by decide)).2 hn⟩

end FlashDismiss

namespace FlashDismiss

/-! ## Invariants of the store along the loop -/

/-- A property of the store that both mutations of the script preserve holds
after the timer loop if it held before. -/
theorem runTimers_dom_invariant (P : Dom → Prop)
    (hset : ∀ dom el, P dom → P (setAnimation dom el slideOut))
    (hrem : ∀ dom el, P dom → P (remove dom el))
    (fuel : Nat) (s : State) (t : Nat) (h : P s.dom) : P (runTimers fuel s t).dom := by
  induction fuel generalizing s with
  | zero => exact h
  | succ n ih =>
    cases hq : s.timers with
    | nil => simpa [runTimers, hq] using h
    | cons tm rest =>
      by_cases hd : tm.due ≤ t
      · simp only [runTimers, hq, hd, if_true]
        apply ih
        obtain ⟨due, cb⟩ := tm
        cases cb with
        | startClosing el => exact hset _ _ h
        | removeEl el => exact hrem _ _ h
      · simpa [runTimers, hq, hd] using h

theorem length_advance (s : State) (ms : Nat) :
    (advanceTimersByTime s ms).dom.length = s.dom.length :=
  runTimers_dom_invariant (fun d => d.length = s.dom.length)
    (fun dom el h => by simp only [length_setAnimation]; exact h)
    (fun dom el h => by simp only [length_remove]; exact h) _ s _ rfl

theorem length_applyExternal_ge (dom : Dom) (a : External) :
    dom.length ≤ (applyExternal dom a).length := by
  cases a <;> simp [applyExternal, remove, setAnimation]

theorem length_runScript_ge (s : State) (script : List (Nat × External)) :
    s.dom.length ≤ (runScript s script).dom.length := by
  induction script generalizing s with
  | nil => exact Nat.le_refl _
  | cons p rest ih =>
    obtain ⟨delay, a⟩ := p
    simp only [runScript]
    refine Nat.le_trans ?_ (ih _)
    have h1 := length_advance s delay
    have h2 := length_applyExternal_ge (advanceTimersByTime s delay).dom a
    simp only
    omega

theorem advance_pending_nil (i : Nat) (s : State) (ms : Nat) (hs : SortedQ s.timers)
    (hp : timersOf i s.timers = []) :
    view i (advanceTimersByTime s ms) = view i s := by
  rw [view_advance i s ms hs]
  exact runView_nil _ _ _ hp

/-- An element for which no timer is pending keeps having none, and no timer
fires for it, whatever other scripts do. -/
theorem pending_nil_runScript (i : Nat) (script : List (Nat × External)) (s : State)
    (hs : SortedQ s.timers) (hp : timersOf i s.timers = []) :
    timersOf i (runScript s script).timers = [] ∧
      timersOf i (runScript s script).fired = timersOf i s.fired ∧
      SortedQ (runScript s script).timers := by
  induction script generalizing s with
  | nil => exact ⟨hp, rfl, hs⟩
  | cons p rest ih =>
    obtain ⟨delay, a⟩ := p
    simp only [runScript]
    have hv := advance_pending_nil i s delay hs hp
    have h1 : timersOf i (advanceTimersByTime s delay).timers = [] := by
      have := congrArg View.pending hv
      simp only [view] at this
      rw [this, hp]
    have h2 : timersOf i (advanceTimersByTime s delay).fired = timersOf i s.fired := by
      have := congrArg View.done hv
      simpa only [view] using this
    obtain ⟨r1, r2, r3⟩ := ih { advanceTimersByTime s delay with
      dom := applyExternal (advanceTimersByTime s delay).dom a } (sortedQ_advance s delay hs) h1
    exact ⟨r1, r2.trans h2, r3⟩

/-- An element for which no timer is pending and that other scripts leave alone
stays as it is. -/
theorem elem_unmanaged_runScript (i : Nat) (x : Element) (script : List (Nat × External))
    (s : State) (hs : SortedQ s.timers) (hp : timersOf i s.timers = [])
    (hx : s.dom[i]? = some x) (hu : ∀ p ∈ script, p.2.touches i = false) :
    (runScript s script).dom[i]? = some x := by
  induction script generalizing s with
  | nil => exact hx
  | cons p rest ih =>
    obtain ⟨delay, a⟩ := p
    simp only [runScript]
    have hv := advance_pending_nil i s delay hs hp
    have he : (advanceTimersByTime s delay).dom[i]? = some x := by
      have := congrArg View.elem hv
      simp only [view] at this
      rw [this, hx]
    have hpe : timersOf i (advanceTimersByTime s delay).timers = [] := by
      have := congrArg View.pending hv
      simp only [view] at this
      rw [this, hp]
    apply ih
    · exact sortedQ_advance s delay hs
    · exact hpe
    · have ha : a.touches i = false := hu (delay, a) (List.mem_cons_self _ _)
      simp only
      rw [getElem?_applyExternal_of_untouched ha (lt_length_of_getElem?_eq_some he)]
      exact he
    · exact fun p hp => hu p (List.mem_cons_of_mem _ hp)

theorem timersOf_loaded_of_not_matched {dom : Dom} {i : Nat}
    (h : i ∉ (List.range dom.length).filter (matchesClass dom "flash")) :
    timersOf i (armedPage dom).timers = [] := by
  simp only [armedPage]
  rw [timersOf_map_startClosing i _ (nodup_flashRefs dom "flash"), if_neg h]

end FlashDismiss

namespace FlashDismiss

/-! ## Elements that enter the document later -/

theorem length_applyExternal (dom : Dom) (a : External) :
    (applyExternal dom a).length = dom.length + (if a.isCreate then 1 else 0) := by
  cases a <;> simp [applyExternal, remove, setAnimation, External.isCreate]

theorem length_runScript (s : State) (script : List (Nat × External)) :
    (runScript s script).dom.length =
      s.dom.length + (script.filter (fun p => p.2.isCreate)).length := by
  induction script generalizing s with
  | nil => simp [runScript]
  | cons p rest ih =>
    obtain ⟨delay, a⟩ := p
    simp only [runScript]
    rw [ih]
    simp only [length_applyExternal, length_advance, List.filter_cons]
    cases h : a.isCreate
    · simp
    · simp; omega

theorem observe_append_cons (s : State) (pre post : List (Nat × External)) (d ms : Nat)
    (a : External) :
    observe s (pre ++ (d, a) :: post) ms =
      observe { advanceTimersByTime (runScript s pre) d with
        dom := applyExternal (advanceTimersByTime (runScript s pre) d).dom a } post ms := by
  unfold observe
  rw [runScript_append]
  rfl

/-- An element with no pending timer that other scripts leave alone is found
unchanged at every later observation, and nothing has fired for it meanwhile. -/
theorem unmanaged_observe (i : Nat) (x : Element) (script : List (Nat × External)) (ms : Nat)
    (s : State) (hs : SortedQ s.timers) (hp : timersOf i s.timers = [])
    (hx : s.dom[i]? = some x) (hu : ∀ p ∈ script, p.2.touches i = false) :
    (observe s script ms).dom[i]? = some x ∧
      timersOf i (observe s script ms).timers = [] ∧
      timersOf i (observe s script ms).fired = timersOf i s.fired := by
  obtain ⟨h1, h2, h3⟩ := pending_nil_runScript i script s hs hp
  have h4 := elem_unmanaged_runScript i x script s hs hp hx hu
  have hv := advance_pending_nil i (runScript s script) ms h3 h1
  unfold observe
  refine ⟨?_, ?_, ?_⟩
  · have := congrArg View.elem hv
    simp only [view] at this
    rw [this, h4]
  · have := congrArg View.pending hv
    simp only [view] at this
    rw [this, h1]
  · have := congrArg View.done hv
    simp only [view] at this
    rw [this, h2]

theorem not_mem_of_timersOf_eq_nil {i : Nat} {q : List Timer} (h : timersOf i q = [])
    (tm : Timer) (htm : tm ∈ q) : tm.cb.target ≠ i := by
  intro hi
  have : tm ∈ timersOf i q := by
    simp only [timersOf, List.mem_filter]
    exact ⟨htm, by simpa using hi⟩
  rw [h] at this
  cases this

end FlashDismiss

namespace FlashDismiss

end FlashDismiss

namespace FlashDismiss

/-! ## The page with and without the controller -/

theorem advance_no_timers (s : State) (ms : Nat) (h : s.timers = []) :
    advanceTimersByTime s ms = { s with now := s.now + ms } := by
  simp [advanceTimersByTime, h, queueCost, runTimers]

theorem getElem?_attach (dom : Dom) (el i : Nat) :
    (dom.modify (fun e => { e with isConnected := true }) el)[i]? =
      if el = i then dom[i]?.map (fun e => { e with isConnected := true }) else dom[i]? := by
  by_cases h : el = i
  · subst h; simp [List.getElem?_modify_eq]
  · simp [h, List.getElem?_modify_ne]

theorem getElem?_applyExternal_congr {a b : Dom} (act : External) (i : Nat)
    (hlen : a.length = b.length) (h : a[i]? = b[i]?) :
    (applyExternal a act)[i]? = (applyExternal b act)[i]? := by
  cases act with
  | detach el => simp only [applyExternal, getElem?_remove, h]
  | attach el => simp only [applyExternal, getElem?_attach, h]
  | setStyle el v => simp only [applyExternal, getElem?_setAnimation, h]
  | create e =>
    simp only [applyExternal, List.getElem?_append, hlen, h]

theorem unmatched_same_runScript (i : Nat) (script : List (Nat × External)) (a b : State)
    (hs : SortedQ a.timers) (hp : timersOf i a.timers = []) (hb : b.timers = [])
    (hlen : a.dom.length = b.dom.length) (h : a.dom[i]? = b.dom[i]?) :
    (runScript a script).dom[i]? = (runScript b script).dom[i]? ∧
      timersOf i (runScript a script).timers = [] ∧ SortedQ (runScript a script).timers ∧
      (runScript b script).timers = [] := by
  induction script generalizing a b with
  | nil => exact ⟨h, hp, hs, hb⟩
  | cons p rest ih =>
    obtain ⟨delay, act⟩ := p
    simp only [runScript]
    have hv := advance_pending_nil i a delay hs hp
    have he : (advanceTimersByTime a delay).dom[i]? = a.dom[i]? := by
      have := congrArg View.elem hv
      simpa only [view] using this
    have hpe : timersOf i (advanceTimersByTime a delay).timers = [] := by
      have := congrArg View.pending hv
      simp only [view] at this
      rw [this, hp]
    rw [advance_no_timers b delay hb]
    apply ih
    · exact sortedQ_advance a delay hs
    · exact hpe
    · exact hb
    · simp only [length_applyExternal, length_advance, hlen]
    · exact getElem?_applyExternal_congr act i (by rw [length_advance, hlen]) (by rw [he, h])

theorem changed_closing {x y : Element} (h : ChangedOnlyByController x y) :
    ChangedOnlyByController x.closing y :=
  ⟨h.1, h.2.1, Or.inr rfl, h.2.2.2⟩

theorem changed_detached {x y : Element} (h : ChangedOnlyByController x y) :
    ChangedOnlyByController x.detached y :=
  ⟨h.1, h.2.1, h.2.2.1, Or.inr rfl⟩

theorem sameUpTo_setAnimation {a b : Dom} (el : Nat) (h : SameUpToController a b) :
    SameUpToController (setAnimation a el slideOut) b := by
  refine ⟨by rw [length_setAnimation]; exact h.1, ?_⟩
  intro i x hx
  rw [getElem?_setAnimation] at hx
  by_cases hi : el = i
  · simp only [hi, if_true] at hx
    cases ha : a[i]? with
    | none => rw [ha] at hx; cases hx
    | some x0 =>
      rw [ha] at hx
      cases hx
      obtain ⟨y, hy, hc⟩ := h.2 i x0 ha
      exact ⟨y, hy, changed_closing hc⟩
  · simp only [hi, if_false] at hx
    exact h.2 i x hx

theorem sameUpTo_remove {a b : Dom} (el : Nat) (h : SameUpToController a b) :
    SameUpToController (remove a el) b := by
  refine ⟨by rw [length_remove]; exact h.1, ?_⟩
  intro i x hx
  rw [getElem?_remove] at hx
  by_cases hi : el = i
  · simp only [hi, if_true] at hx
    cases ha : a[i]? with
    | none => rw [ha] at hx; cases hx
    | some x0 =>
      rw [ha] at hx
      cases hx
      obtain ⟨y, hy, hc⟩ := h.2 i x0 ha
      exact ⟨y, hy, changed_detached hc⟩
  · simp only [hi, if_false] at hx
    exact h.2 i x hx

theorem sameUpTo_advance (s : State) (ms : Nat) {b : Dom} (h : SameUpToController s.dom b) :
    SameUpToController (advanceTimersByTime s ms).dom b :=
  runTimers_dom_invariant (fun d => SameUpToController d b)
    (fun _ el hd => sameUpTo_setAnimation el hd) (fun _ el hd => sameUpTo_remove el hd) _ s _ h

end FlashDismiss

namespace FlashDismiss

theorem sameUpTo_modify {a b : Dom} (f : Element → Element) (el : Nat)
    (hf : ∀ x y, ChangedOnlyByController x y → ChangedOnlyByController (f x) (f y))
    (h : SameUpToController a b) :
    SameUpToController (a.modify f el) (b.modify f el) := by
  refine ⟨by simp [h.1], ?_⟩
  intro i x hx
  by_cases hi : el = i
  · subst hi
    rw [List.getElem?_modify_eq] at hx ⊢
    cases ha : a[el]? with
    | none => rw [ha] at hx; cases hx
    | some x0 =>
      rw [ha] at hx
      cases hx
      obtain ⟨y, hy, hc⟩ := h.2 el x0 ha
      exact ⟨f y, by rw [hy]; rfl, hf _ _ hc⟩
  · rw [List.getElem?_modify_ne _ _ hi] at hx ⊢
    exact h.2 i x hx

theorem sameUpTo_applyExternal {a b : Dom} (act : External) (h : SameUpToController a b) :
    SameUpToController (applyExternal a act) (applyExternal b act) := by
  cases act with
  | detach el =>
    apply sameUpTo_modify _ _ _ h
    intro x y hc
    rw [removeFn_eq, removeFn_eq]
    exact ⟨hc.1, hc.2.1, hc.2.2.1, Or.inl rfl⟩
  | attach el =>
    apply sameUpTo_modify _ _ _ h
    intro x y hc
    exact ⟨hc.1, hc.2.1, hc.2.2.1, Or.inl rfl⟩
  | setStyle el v =>
    apply sameUpTo_modify _ _ _ h
    intro x y hc
    exact ⟨hc.1, hc.2.1, Or.inl rfl, hc.2.2.2⟩
  | create e =>
    refine ⟨by simp [applyExternal, h.1], ?_⟩
    intro i x hx
    simp only [applyExternal, List.getElem?_append] at hx ⊢
    rw [← h.1]
    by_cases hi : i < a.length
    · simp only [hi, if_true] at hx ⊢
      exact h.2 i x hx
    · simp only [hi, if_false] at hx ⊢
      exact ⟨x, hx, rfl, rfl, Or.inl rfl, Or.inl rfl⟩

theorem sameUpTo_runScript (script : List (Nat × External)) (a b : State)
    (hb : b.timers = []) (h : SameUpToController a.dom b.dom) :
    SameUpToController (runScript a script).dom (runScript b script).dom := by
  induction script generalizing a b with
  | nil => exact h
  | cons p rest ih =>
    obtain ⟨delay, act⟩ := p
    simp only [runScript]
    rw [advance_no_timers b delay hb]
    apply ih
    · exact hb
    · exact sameUpTo_applyExternal act (sameUpTo_advance a delay h)

theorem sameUpTo_refl (dom : Dom) : SameUpToController dom dom :=
  ⟨rfl, fun _ x hx => ⟨x, hx, rfl, rfl, Or.inl rfl, Or.inl rfl⟩⟩

end FlashDismiss

namespace FlashDismiss

/-! ## C9 -/

theorem reachable_runTimers (dom : Dom) (fuel : Nat) (s : State) (t : Nat)
    (h : Reachable dom s) : Reachable dom (runTimers fuel s t) := by
  induction fuel generalizing s with
  | zero => exact h
  | succ n ih =>
    cases hq : s.timers with
    | nil => simpa [runTimers, hq] using h
    | cons tm rest =>
      by_cases hd : tm.due ≤ t
      · simp only [runTimers, hq, hd, if_true]
        exact ih _ (Reachable.fire h hq)
      · simpa [runTimers, hq, hd] using h

theorem reachable_advance (dom : Dom) (s : State) (ms : Nat) (h : Reachable dom s) :
    Reachable dom (advanceTimersByTime s ms) :=
  Reachable.tick _ (reachable_runTimers dom _ s _ h)

theorem reachable_runScript (dom : Dom) (script : List (Nat × External)) (s : State)
    (h : Reachable dom s) (hstyle : ∀ p ∈ script, p.2.isSetStyle = false) :
    Reachable dom (runScript s script) := by
  induction script generalizing s with
  | nil => exact h
  | cons p rest ih =>
    obtain ⟨delay, a⟩ := p
    simp only [runScript]
    apply ih
    · exact Reachable.external a (reachable_advance dom s delay h)
        (hstyle (delay, a) (List.mem_cons_self _ _))
    · exact fun p hp => hstyle p (List.mem_cons_of_mem _ hp)

theorem length_fireTimer (s : State) (tm : Timer) (rest : List Timer) :
    (fireTimer s tm rest).dom.length = s.dom.length := by
  obtain ⟨due, cb⟩ := tm
  cases cb <;> simp [fireTimer, runCallback, setTimeout, length_setAnimation, length_remove]

theorem animation_applyExternal {dom : Dom} {a : External} (ha : a.isSetStyle = false)
    {el : Nat} (hel : el < dom.length)
    (h : ∀ x, dom[el]? = some x → x.animation = slideOut) (y : Element)
    (hy : (applyExternal dom a)[el]? = some y) : y.animation = slideOut := by
  cases a with
  | detach j =>
    simp only [applyExternal, getElem?_remove] at hy
    by_cases hj : j = el
    · simp only [hj, if_true] at hy
      cases hd : dom[el]? with
      | none => rw [hd] at hy; cases hy
      | some x => rw [hd] at hy; cases hy; exact h x hd
    · simp only [hj, if_false] at hy
      exact h y hy
  | attach j =>
    simp only [applyExternal, getElem?_attach] at hy
    by_cases hj : j = el
    · simp only [hj, if_true] at hy
      cases hd : dom[el]? with
      | none => rw [hd] at hy; cases hy
      | some x => rw [hd] at hy; cases hy; exact h x hd
    · simp only [hj, if_false] at hy
      exact h y hy
  | setStyle j v => simp [External.isSetStyle] at ha
  | create e =>
    simp only [applyExternal, List.getElem?_append_left hel] at hy
    exact h y hy

theorem timersWellFormed_of_reachable {dom : Dom} {s : State} (h : Reachable dom s) :
    TimersWellFormed s := by
  induction h with
  | loaded h0 =>
    rw [onDOMContentLoaded_load] at h0
    cases h0
    intro tm htm
    simp only [armedPage, List.mem_map] at htm
    obtain ⟨el, hel, rfl⟩ := htm
    exact ⟨List.mem_range.mp (List.mem_of_mem_filter hel), Or.inl ⟨el, rfl⟩⟩
  | @fire s tm rest _ hq ih =>
    have hhead := ih tm (by rw [hq]; exact List.mem_cons_self _ _)
    have hrest : ∀ x ∈ rest, x ∈ s.timers := fun x hx => by
      rw [hq]; exact List.mem_cons_of_mem _ hx
    have hlen := length_fireTimer s tm rest
    obtain ⟨htarget, hshape⟩ := hhead
    rcases hshape with ⟨el, rfl⟩ | ⟨el, rfl, _⟩
    · intro x hx
      rw [hlen]
      simp only [fireTimer, runCallback, setTimeout] at hx ⊢
      rcases mem_insertTimer.mp hx with rfl | hx
      · refine ⟨htarget, Or.inr ⟨el, rfl, ?_⟩⟩
        intro y hy
        rw [getElem?_setAnimation] at hy
        simp only [if_true] at hy
        cases hd : s.dom[el]? with
        | none => rw [hd] at hy; cases hy
        | some y0 => rw [hd] at hy; cases hy; rfl
      · obtain ⟨ht, hsh⟩ := ih x (hrest x hx)
        refine ⟨ht, ?_⟩
        rcases hsh with hsc | ⟨el', rfl, hanim⟩
        · exact Or.inl hsc
        · refine Or.inr ⟨el', rfl, ?_⟩
          intro y hy
          rw [getElem?_setAnimation] at hy
          by_cases he : el = el'
          · simp only [he, if_true] at hy
            cases hd : s.dom[el']? with
            | none => rw [hd] at hy; cases hy
            | some y0 => rw [hd] at hy; cases hy; rfl
          · simp only [he, if_false] at hy
            exact hanim y hy
    · intro x hx
      rw [hlen]
      simp only [fireTimer, runCallback] at hx ⊢
      obtain ⟨ht, hsh⟩ := ih x (hrest x hx)
      refine ⟨ht, ?_⟩
      rcases hsh with hsc | ⟨el', rfl, hanim⟩
      · exact Or.inl hsc
      · refine Or.inr ⟨el', rfl, ?_⟩
        intro y hy
        rw [getElem?_remove] at hy
        by_cases he : el = el'
        · simp only [he, if_true] at hy
          cases hd : s.dom[el']? with
          | none => rw [hd] at hy; cases hy
          | some y0 =>
            rw [hd] at hy
            cases hy
            exact hanim y0 hd
        · simp only [he, if_false] at hy
          exact hanim y hy
  | tick t _ ih => exact ih
  | @external s a _ ha ih =>
    intro x hx
    obtain ⟨ht, hsh⟩ := ih x hx
    have hge := length_applyExternal_ge s.dom a
    refine ⟨by simp only; omega, ?_⟩
    rcases hsh with hsc | ⟨el', rfl, hanim⟩
    · exact Or.inl hsc
    · exact Or.inr ⟨el', rfl, animation_applyExternal ha ht hanim⟩

end FlashDismiss

namespace FlashDismiss

theorem phaseOf_closing (x : Element) :
    (x.isConnected = true ∧ phaseOf x.closing = .closing) ∨
      (x.isConnected = false ∧ phaseOf x.closing = .removed ∧ phaseOf x = .removed) := by
  obtain ⟨c, t, a, b⟩ := x
  cases b <;> simp [phaseOf, Element.closing]

theorem phaseOf_detached (x : Element) : phaseOf x.detached = .removed := by
  simp [phaseOf, Element.detached]

theorem phaseOf_cases (x : Element) :
    (x.isConnected = false ∧ phaseOf x = .removed) ∨
      (x.isConnected = true ∧ x.animation = slideOut ∧ phaseOf x = .closing) ∨
      (x.isConnected = true ∧ x.animation ≠ slideOut ∧ phaseOf x = .idle) := by
  obtain ⟨c, t, a, b⟩ := x
  cases b
  · simp [phaseOf]
  · by_cases h : a = slideOut <;> simp [phaseOf, h]

/-- C9: read each element as a notice in state idle, closing or removed.  In
every state the page can reach (also with other scripts detaching, attaching
and creating elements in between), the next loop iteration either leaves the
state of an element as it is, or moves it from idle to closing, which happens
only when its own closing timer (due 5000 ms) fires, or moves it from closing
to removed, which happens only when its own removal timer (due 5300 ms) fires.
Hence removed is terminal, closing never goes back to idle and idle never goes
straight to removed. -/
theorem notice_state_machine (dom : Dom) (s : State) (tm : Timer) (rest : List Timer)
    (i : Nat) (x : Element) (hr : Reachable dom s) (hq : s.timers = tm :: rest)
    (hx : s.dom[i]? = some x) :
    ∃ y, (fireTimer s tm rest).dom[i]? = some y ∧
      (phaseOf y = phaseOf x ∨
        (phaseOf x = .idle ∧ phaseOf y = .closing ∧ tm = ⟨5000, .startClosing i⟩) ∨
        (phaseOf x = .closing ∧ phaseOf y = .removed ∧ tm = ⟨5300, .removeEl i⟩)) ∧
      (phaseOf x = .removed → phaseOf y = .removed) ∧
      ¬ (phaseOf x = .closing ∧ phaseOf y = .idle) ∧
      ¬ (phaseOf x = .idle ∧ phaseOf y = .removed) := by
  have hwf := (timersWellFormed_of_reachable hr tm
    (by rw [hq]; exact List.mem_cons_self _ _)).2
  have key : ∃ y, (fireTimer s tm rest).dom[i]? = some y ∧
      (phaseOf y = phaseOf x ∨
        (phaseOf x = .idle ∧ phaseOf y = .closing ∧ tm = ⟨5000, .startClosing i⟩) ∨
        (phaseOf x = .closing ∧ phaseOf y = .removed ∧ tm = ⟨5300, .removeEl i⟩)) := by
    rcases hwf with ⟨el, rfl⟩ | ⟨el, rfl, hanim⟩
    · by_cases he : el = i
      · subst he
        refine ⟨x.closing, ?_, ?_⟩
        · simp [fireTimer, runCallback, setTimeout, getElem?_setAnimation, hx, Element.closing]
        · rcases phaseOf_closing x with ⟨hc, hp⟩ | ⟨_, hp, hp'⟩
          · rcases phaseOf_cases x with ⟨hc', _⟩ | ⟨_, _, hp'⟩ | ⟨_, _, hp'⟩
            · rw [hc] at hc'; cases hc'
            · exact Or.inl (by rw [hp, hp'])
            · exact Or.inr (Or.inl ⟨hp', hp, rfl⟩)
          · exact Or.inl (by rw [hp, hp'])
      · refine ⟨x, ?_, Or.inl rfl⟩
        simp [fireTimer, runCallback, setTimeout, getElem?_setAnimation, he, hx]
    · by_cases he : el = i
      · subst he
        refine ⟨x.detached, ?_, ?_⟩
        · simp [fireTimer, runCallback, getElem?_remove, hx]
        · rcases phaseOf_cases x with ⟨_, hp⟩ | ⟨_, _, hp⟩ | ⟨_, ha, _⟩
          · exact Or.inl (by rw [phaseOf_detached, hp])
          · exact Or.inr (Or.inr ⟨hp, phaseOf_detached x, rfl⟩)
          · exact absurd (hanim x hx) ha
      · refine ⟨x, ?_, Or.inl rfl⟩
        simp [fireTimer, runCallback, getElem?_remove, he, hx]
  obtain ⟨y, hy, hstep⟩ := key
  refine ⟨y, hy, hstep, ?_, ?_, ?_⟩
  · intro hrem
    rcases hstep with h | ⟨h, _, _⟩ | ⟨h, _, _⟩
    · rw [h, hrem]
    · rw [hrem] at h; cases h
    · rw [hrem] at h; cases h
  · rintro ⟨h1, h2⟩
    rcases hstep with h | ⟨h, _, _⟩ | ⟨_, h, _⟩
    · rw [h1, h2] at h; cases h
    · rw [h1] at h; cases h
    · rw [h2] at h; cases h
  · rintro ⟨h1, h2⟩
    rcases hstep with h | ⟨_, h, _⟩ | ⟨h, _, _⟩
    · rw [h1, h2] at h; cases h
    · rw [h2] at h; cases h
    · rw [h1] at h; cases h

/-- On the example page, right after the handler, the first loop iteration
fires the closing timer of the "Saved" notice and moves it from idle to
closing. -/
theorem notice_state_machine_witness :
    Reachable demoDom (armedPage demoDom) ∧
      phaseOf ⟨["flash", "success"], "Saved", "", true⟩ = .idle ∧
      ∃ y, (fireTimer (armedPage demoDom) ⟨5000, .startClosing 0⟩
          [⟨5000, .startClosing 3⟩]).dom[0]? = some y ∧ phaseOf y = .closing := by
  have hr : Reachable demoDom (armedPage demoDom) :=
    Reachable.loaded (onDOMContentLoaded_load demoDom)
  obtain ⟨y, hy, hstep, _, _, _⟩ :=
    notice_state_machine demoDom (armedPage demoDom) ⟨5000, .startClosing 0⟩
      [⟨5000, .startClosing 3⟩] 0 ⟨["flash", "success"], "Saved", "", true⟩ hr (by rfl) (by rfl)
  have hidle : phaseOf ⟨["flash", "success"], "Saved", "", true⟩ = .idle := by decide
  refine ⟨hr, hidle, y, hy, ?_⟩
  have hy' : (fireTimer (armedPage demoDom) ⟨5000, .startClosing 0⟩
      [⟨5000, .startClosing 3⟩]).dom[0]? =
      some ⟨["flash", "success"], "Saved", "slideOut .3s ease forwards", true⟩ := by rfl
  rw [hy'] at hy
  cases hy
  decide

end FlashDismiss

namespace FlashDismiss

/-! ## Running the handler twice -/

theorem runView_single_double (i now ms : Nat) (x : Option Element) (d1 d2 : List Timer) :
    (runView (queueCost (pendingAt 1 i now)) ⟨x, pendingAt 1 i now, d1⟩ (now + ms)).elem =
        (runView (queueCost (pendingAt 2 i now)) ⟨x, pendingAt 2 i now, d2⟩ (now + ms)).elem ∧
      (runView (queueCost (pendingAt 1 i now)) ⟨x, pendingAt 1 i now, d1⟩ (now + ms)).pending =
        pendingAt 1 i (now + ms) ∧
      (runView (queueCost (pendingAt 2 i now)) ⟨x, pendingAt 2 i now, d2⟩ (now + ms)).pending =
        pendingAt 2 i (now + ms) := by
  unfold pendingAt
  by_cases h1 : now < 5000
  · by_cases h2 : now + ms < 5000
    · have : ¬ 5000 ≤ now + ms := by omega
      simp [h1, h2, queueCost, Callback.cost, runView, this, List.replicate]
    · by_cases h3 : now + ms < 5300
      · have h4 : 5000 ≤ now + ms := by omega
        have h5 : ¬ 5300 ≤ now + ms := by omega
        cases x <;>
          simp [h1, h2, h3, queueCost, Callback.cost, runView, stepView, insertTimer, h4, h5,
            List.replicate, Element.closing]
      · have h4 : 5000 ≤ now + ms := by omega
        have h5 : 5300 ≤ now + ms := by omega
        cases x <;>
          simp [h1, h2, h3, queueCost, Callback.cost, runView, stepView, insertTimer, h4, h5,
            List.replicate, Element.closing, Element.detached]
  · by_cases h2 : now < 5300
    · have h3 : ¬ now + ms < 5000 := by omega
      by_cases h4 : now + ms < 5300
      · have h5 : ¬ 5300 ≤ now + ms := by omega
        simp [h1, h2, h3, h4, queueCost, Callback.cost, runView, h5, List.replicate]
      · have h5 : 5300 ≤ now + ms := by omega
        cases x <;>
          simp [h1, h2, h3, h4, queueCost, Callback.cost, runView, stepView, h5, List.replicate,
            Element.detached]
    · have h3 : ¬ now + ms < 5000 := by omega
      have h4 : ¬ now + ms < 5300 := by omega
      simp [h1, h2, h3, h4, queueCost, runView]

end FlashDismiss

namespace FlashDismiss

theorem doubleRel_advance {a b : State} (ms : Nat) (h : DoubleRel a b) :
    DoubleRel (advanceTimersByTime a ms) (advanceTimersByTime b ms) := by
  obtain ⟨hdom, hnow, hsa, hsb, htim⟩ := h
  have hview : ∀ i : Nat,
      (view i (advanceTimersByTime a ms)).elem = (view i (advanceTimersByTime b ms)).elem ∧
      ((timersOf i (advanceTimersByTime a ms).timers = [] ∧
          timersOf i (advanceTimersByTime b ms).timers = []) ∨
        (timersOf i (advanceTimersByTime a ms).timers = pendingAt 1 i (a.now + ms) ∧
          timersOf i (advanceTimersByTime b ms).timers = pendingAt 2 i (a.now + ms))) := by
    intro i
    rcases htim i with ⟨ha, hb⟩ | ⟨ha, hb⟩
    · rw [advance_pending_nil i a ms hsa ha, advance_pending_nil i b ms hsb hb]
      refine ⟨by simp only [view, hdom], Or.inl ?_⟩
      have h1 := congrArg View.pending (advance_pending_nil i a ms hsa ha)
      have h2 := congrArg View.pending (advance_pending_nil i b ms hsb hb)
      simp only [view] at h1 h2
      rw [h1, h2]
      exact ⟨ha, hb⟩
    · have va : view i a = ⟨a.dom[i]?, pendingAt 1 i a.now, timersOf i a.fired⟩ := by
        simp only [view, ha]
      have vb : view i b = ⟨a.dom[i]?, pendingAt 2 i a.now, timersOf i b.fired⟩ := by
        simp only [view, hb, hdom]
      obtain ⟨k1, k2, k3⟩ := runView_single_double i a.now ms a.dom[i]?
        (timersOf i a.fired) (timersOf i b.fired)
      have ea := view_advance i a ms hsa
      have eb := view_advance i b ms hsb
      rw [va] at ea
      rw [← hnow, vb] at eb
      refine ⟨?_, Or.inr ⟨?_, ?_⟩⟩
      · rw [ea, eb]
        exact k1
      · have := congrArg View.pending ea
        simp only [view] at this
        rw [this]
        exact k2
      · have := congrArg View.pending eb
        simp only [view] at this
        rw [this]
        exact k3
  refine ⟨?_, ?_, sortedQ_advance a ms hsa, sortedQ_advance b ms hsb, ?_⟩
  · apply List.ext_getElem?
    intro i
    exact (hview i).1
  · simp only [now_advance, hnow]
  · intro i
    rw [now_advance]
    exact (hview i).2

theorem doubleRel_runScript (script : List (Nat × External)) {a b : State}
    (h : DoubleRel a b) : DoubleRel (runScript a script) (runScript b script) := by
  induction script generalizing a b with
  | nil => exact h
  | cons p rest ih =>
    obtain ⟨delay, act⟩ := p
    simp only [runScript]
    apply ih
    obtain ⟨hdom, hnow, hsa, hsb, htim⟩ := doubleRel_advance delay h
    exact ⟨by simp only [hdom], hnow, hsa, hsb, htim⟩

theorem timersOf_append (i : Nat) (p q : List Timer) :
    timersOf i (p ++ q) = timersOf i p ++ timersOf i q := by
  simp [timersOf, List.filter_append]

theorem sortedQ_append_const {d : Nat} {p q : List Timer} (hp : ∀ x ∈ p, x.due = d)
    (hq : ∀ x ∈ q, x.due = d) : SortedQ (p ++ q) := by
  unfold SortedQ
  apply List.pairwise_of_forall_mem_list
  intro x hx y hy
  have hx' : x.due = d := by
    rcases List.mem_append.mp hx with h | h
    · exact hp x h
    · exact hq x h
  have hy' : y.due = d := by
    rcases List.mem_append.mp hy with h | h
    · exact hp y h
    · exact hq y h
  omega

/-! ## C10 -/

/-- C10: run the handler twice in a row on the loaded page.  Both runs succeed;
after the second there are two closing timers per matched element (2N in all,
all due at 5000 ms); yet under any external activity and at every observation
the store is identical to the one obtained with a single run. -/
theorem double_binding_same_document (dom : Dom) (script : List (Nat × External)) (ms : Nat) :
    ∃ els s1 s2, querySelectorAll dom ".flash" = .ok els ∧
      onDOMContentLoaded (State.load dom) = .ok s1 ∧
      onDOMContentLoaded s1 = .ok s2 ∧
      s1.timers.length = els.length ∧
      s2.timers.length = 2 * els.length ∧
      s2.timers = (els ++ els).map (fun el => ⟨5000, .startClosing el⟩) ∧
      (observe s2 script ms).now = (observe s1 script ms).now ∧
      (observe s2 script ms).dom = (observe s1 script ms).dom := by
  have hmem : ∀ x ∈ (armedPage dom).timers, x.due = 5000 := by
    intro x hx
    simp only [armedPage, List.mem_map] at hx
    obtain ⟨el, _, rfl⟩ := hx
    rfl
  have h2 := onDOMContentLoaded_eq (armedPage dom) (fun x hx => by
    rw [hmem x hx]; simp [armedPage])
  have hrel : DoubleRel (armedPage dom)
      ⟨(armedPage dom).now, (armedPage dom).dom,
        (armedPage dom).timers ++
          ((List.range (armedPage dom).dom.length).filter
            (matchesClass (armedPage dom).dom "flash")).map
            (fun el => ⟨(armedPage dom).now + 5000, .startClosing el⟩),
        (armedPage dom).fired⟩ := by
    refine ⟨rfl, rfl, sortedQ_armedPage dom, sortedQ_append_const hmem hmem, ?_⟩
    intro i
    simp only [timersOf_append]
    simp only [armedPage, Nat.zero_add,
      timersOf_map_startClosing i 5000 (nodup_flashRefs dom "flash")]
    by_cases hi : i ∈ (List.range dom.length).filter (matchesClass dom "flash")
    · right
      simp [hi, pendingAt, List.replicate]
    · left
      simp [hi]
  have hobs := doubleRel_advance ms (doubleRel_runScript script hrel)
  refine ⟨(List.range dom.length).filter (matchesClass dom "flash"), armedPage dom, _, ?_,
    onDOMContentLoaded_load dom, h2, ?_, ?_, ?_, hobs.2.1.symm, hobs.1.symm⟩
  · unfold querySelectorAll
    rw [parse_flash]
  · simp [armedPage]
  · simp [armedPage]; omega
  · simp [armedPage]

/-- On the example page a second run of the handler leaves four timers, and
the store observed at 5400 ms is the same as after one run. -/
theorem double_binding_witness :
    ∃ s1 s2, onDOMContentLoaded (State.load demoDom) = .ok s1 ∧
      onDOMContentLoaded s1 = .ok s2 ∧ s2.timers.length = 4 ∧
      (observe s2 demoScript 200).dom = (observe s1 demoScript 200).dom := by
  obtain ⟨els, s1, s2, h0, h1, h2, _, h4, _, _, h6⟩ :=
    double_binding_same_document demoDom demoScript 200
  have hels : els = [0, 3] := by
    have : querySelectorAll demoDom ".flash" = .ok [0, 3] := by rfl
    rw [this] at h0
    cases h0
    rfl
  subst hels
  exact ⟨s1, s2, h1, h2, h4, h6⟩

end FlashDismiss

namespace FlashDismiss

/-! ## Nested pages: the handler and the layout -/

theorem onDOMContentLoadedIn_load (layout : Layout) (dom : Dom) :
    onDOMContentLoadedIn layout (State.load dom) = .ok (armedPageIn layout dom) := by
  unfold onDOMContentLoadedIn querySelectorAllIn
  rw [parse_flash]
  simp only [bind, Except.bind, pure, Except.pure]
  rw [foldl_setTimeout _ _ (by simp [State.load])]
  simp [State.load, armedPageIn]

theorem sortedQ_armedPageIn (layout : Layout) (dom : Dom) :
    SortedQ (armedPageIn layout dom).timers :=
  sortedQ_map_const _ _ _

theorem chainAll_nil (P : Nat → Bool) (fuel i : Nat) :
    chainAll [] P (fuel + 1) i = P i := by
  simp [chainAll, placeOf]

/-- On a page without nesting, being in the document is being linked. -/
theorem inDocument_nil (dom : Dom) (i : Nat) : inDocument [] dom i = isLinked dom i :=
  chainAll_nil _ _ _

theorem matchesClassIn_nil (dom : Dom) (cls : String) (i : Nat) :
    matchesClassIn [] dom cls i = matchesClass dom cls i := by
  unfold matchesClassIn matchesClass
  rw [inDocument_nil]
  unfold isLinked
  cases dom[i]? <;> rfl

/-- On a page without nesting the handler for nested pages is the handler. -/
theorem onDOMContentLoadedIn_nil (s : State) :
    onDOMContentLoadedIn [] s = onDOMContentLoaded s := by
  unfold onDOMContentLoadedIn onDOMContentLoaded querySelectorAllIn querySelectorAll
  have : matchesClassIn [] s.dom = matchesClass s.dom := by
    funext cls i
    exact matchesClassIn_nil s.dom cls i
  rw [this]

theorem mem_flashRefsIn {layout : Layout} {dom : Dom} {cls : String} {i : Nat} :
    i ∈ (List.range dom.length).filter (matchesClassIn layout dom cls) ↔
      ∃ e, dom[i]? = some e ∧ inDocument layout dom i = true ∧ cls ∈ e.classList := by
  rw [List.mem_filter, List.mem_range]
  unfold matchesClassIn
  constructor
  · rintro ⟨hlt, hm⟩
    rw [List.getElem?_eq_getElem hlt] at hm ⊢
    simp only [Bool.and_eq_true] at hm
    exact ⟨_, rfl, hm.1, by simpa using hm.2⟩
  · rintro ⟨e, he, hc, hcls⟩
    refine ⟨lt_length_of_getElem?_eq_some he, ?_⟩
    simp [he, hc, hcls]

theorem isLinked_of_inDocument {layout : Layout} {dom : Dom} {i : Nat}
    (h : inDocument layout dom i = true) : isLinked dom i = true := by
  unfold inDocument at h
  simp only [chainAll, Bool.and_eq_true] at h
  exact h.1

theorem view_loaded_in {layout : Layout} {dom : Dom} {i : Nat} {e : Element}
    (he : dom[i]? = some e) (hdoc : inDocument layout dom i = true)
    (hcls : "flash" ∈ e.classList) :
    view i (armedPageIn layout dom) = phaseView e i 0 := by
  have hmem : i ∈ (List.range dom.length).filter (matchesClassIn layout dom "flash") :=
    mem_flashRefsIn.mpr ⟨e, he, hdoc, hcls⟩
  simp only [view, armedPageIn,
    timersOf_map_startClosing i _ ((List.nodup_range _).filter _), hmem, if_true, he]
  simp [phaseView, timersOf]

theorem timersOf_armedIn_of_not_matched {layout : Layout} {dom : Dom} {i : Nat}
    (h : i ∉ (List.range dom.length).filter (matchesClassIn layout dom "flash")) :
    timersOf i (armedPageIn layout dom).timers = [] := by
  simp only [armedPageIn]
  rw [timersOf_map_startClosing i _ ((List.nodup_range _).filter _), if_neg h]

/-- The store of a nested page evolves as the store alone does. -/
theorem state_runScriptIn (p : Page) (script : List (Nat × ExternalIn)) :
    (runScriptIn p script).state = runScript p.state (script.map (fun q => (q.1, q.2.flat))) := by
  induction script generalizing p with
  | nil => rfl
  | cons q rest ih =>
    obtain ⟨delay, a⟩ := q
    simp only [runScriptIn, List.map_cons, runScript]
    rw [ih]

theorem state_observeIn (p : Page) (script : List (Nat × ExternalIn)) (ms : Nat) :
    (observeIn p script ms).state =
      observe p.state (script.map (fun q => (q.1, q.2.flat))) ms := by
  simp only [observeIn, observe, state_runScriptIn]

theorem layout_observeIn (p : Page) (script : List (Nat × ExternalIn)) (ms : Nat) :
    (observeIn p script ms).layout = (runScriptIn p script).layout := rfl

/-- The layout does not depend on what the timers do: two pages with the same
layout and stores of the same size have the same layout after the same script. -/
theorem layout_runScriptIn_congr (script : List (Nat × ExternalIn)) (p q : Page)
    (hl : p.layout = q.layout) (hn : p.state.dom.length = q.state.dom.length) :
    (runScriptIn p script).layout = (runScriptIn q script).layout := by
  induction script generalizing p q with
  | nil => exact hl
  | cons x rest ih =>
    obtain ⟨delay, a⟩ := x
    simp only [runScriptIn]
    apply ih
    · cases a <;> simp [layoutAfter, hl, length_advance, hn]
    · simp only [length_applyExternal, length_advance, hn]

theorem placeOf_setPlace (layout : Layout) (n : Nat) (place : Option Nat) (i : Nat)
    (hi : i < n) : placeOf (setPlace layout n place) i = placeOf layout i := by
  unfold placeOf setPlace
  have hlen : (layout.take n ++ List.replicate (n - layout.length) none).length = n := by
    simp only [List.length_append, List.length_take, List.length_replicate]
    omega
  rw [List.getElem?_append_left (by rw [hlen]; exact hi)]
  by_cases h : i < layout.length
  · rw [List.getElem?_append_left (by simp only [List.length_take]; omega)]
    rw [List.getElem?_take_of_lt hi]
  · rw [List.getElem?_append_right (by simp only [List.length_take]; omega)]
    rw [List.getElem?_eq_none (Nat.le_of_not_lt h)]
    rw [List.getElem?_replicate]
    split <;> rfl

theorem placeOf_setPlace_self (layout : Layout) (n : Nat) (place : Option Nat) :
    placeOf (setPlace layout n place) n = place := by
  unfold placeOf setPlace
  have hlen : (layout.take n ++ List.replicate (n - layout.length) none).length = n := by
    simp only [List.length_append, List.length_take, List.length_replicate]
    omega
  rw [List.getElem?_append_right (by rw [hlen])]
  simp [hlen]

/-- The place of an element never changes. -/
theorem placeOf_runScriptIn (script : List (Nat × ExternalIn)) (p : Page) (i : Nat)
    (hi : i < p.state.dom.length) :
    placeOf (runScriptIn p script).layout i = placeOf p.layout i := by
  induction script generalizing p with
  | nil => rfl
  | cons x rest ih =>
    obtain ⟨delay, a⟩ := x
    simp only [runScriptIn]
    rw [ih]
    · cases a with
      | create e place =>
        simp only [layoutAfter]
        exact placeOf_setPlace _ _ _ _ (by rw [length_advance]; exact hi)
      | detach el => rfl
      | attach el => rfl
      | setStyle el v => rfl
    · have := length_applyExternal_ge (advanceTimersByTime p.state delay).dom a.flat
      rw [length_advance] at this
      exact Nat.lt_of_lt_of_le hi this

end FlashDismiss

namespace FlashDismiss

/-! ## Presence on a nested page -/

/-- Two walks up the page agree when the places agree and the two properties
agree on every element of a chain on which `Q` holds throughout. -/
theorem chainAll_congr (l1 l2 : Layout) (P P' Q : Nat → Bool) (fuel i : Nat)
    (hplace : ∀ j, j ≤ i → placeOf l1 j = placeOf l2 j)
    (hP : ∀ j, j ≤ i → Q j = true → P j = P' j)
    (hQ : chainAll l1 Q fuel i = true) :
    chainAll l1 P fuel i = chainAll l2 P' fuel i := by
  induction fuel generalizing i with
  | zero => simp [chainAll] at hQ
  | succ n ih =>
    simp only [chainAll, Bool.and_eq_true] at hQ
    simp only [chainAll]
    rw [← hplace i (Nat.le_refl _), hP i (Nat.le_refl _) hQ.1]
    cases hp : placeOf l1 i with
    | none => rfl
    | some p =>
      have h2 := hQ.2
      rw [hp] at h2
      simp only [Bool.and_eq_true, decide_eq_true_eq] at h2
      simp only [h2.1, decide_True, Bool.true_and]
      rw [ih p (fun j hj => hplace j (by omega)) (fun j hj => hP j (by omega)) h2.2]

theorem not_matchedIn_of_eq_false {layout : Layout} {dom : Dom} {j : Nat}
    (h : matchesClassIn layout dom "flash" j = false) :
    j ∉ (List.range dom.length).filter (matchesClassIn layout dom "flash") := by
  intro hm
  have := (List.mem_filter.mp hm).2
  rw [h] at this
  cases this

/-- An element that the handler did not match is the same with and without the
controller, under any external activity. -/
theorem unmatched_same_observeIn (layout : Layout) (dom : Dom)
    (script : List (Nat × ExternalIn)) (ms : Nat) (i : Nat)
    (hi : i ∉ (List.range dom.length).filter (matchesClassIn layout dom "flash")) :
    (observeIn ⟨armedPageIn layout dom, layout⟩ script ms).state.dom[i]? =
      (observeIn ⟨State.load dom, layout⟩ script ms).state.dom[i]? := by
  rw [state_observeIn, state_observeIn]
  obtain ⟨h1, h2, h3, h4⟩ := unmatched_same_runScript i
    (script.map (fun q => (q.1, q.2.flat))) (armedPageIn layout dom) (State.load dom)
    (sortedQ_armedPageIn layout dom) (timersOf_armedIn_of_not_matched hi) rfl rfl rfl
  unfold observe
  rw [advance_no_timers _ ms h4]
  have := congrArg View.elem (advance_pending_nil i _ ms h3 h2)
  simp only [view] at this
  rw [this, h1]

theorem sameUpTo_observeIn (layout : Layout) (dom : Dom)
    (script : List (Nat × ExternalIn)) (ms : Nat) :
    SameUpToController (observeIn ⟨armedPageIn layout dom, layout⟩ script ms).state.dom
      (observeIn ⟨State.load dom, layout⟩ script ms).state.dom := by
  rw [state_observeIn, state_observeIn]
  have h1 := sameUpTo_runScript (script.map (fun q => (q.1, q.2.flat)))
    (armedPageIn layout dom) (State.load dom) rfl (sameUpTo_refl dom)
  have h2 := sameUpTo_advance (runScript (armedPageIn layout dom)
    (script.map (fun q => (q.1, q.2.flat)))) ms h1
  have hb : (runScript (State.load dom) (script.map (fun q => (q.1, q.2.flat)))).timers = [] :=
    (unmatched_same_runScript dom.length (script.map (fun q => (q.1, q.2.flat)))
      (armedPageIn layout dom) (State.load dom) (sortedQ_armedPageIn layout dom)
      (timersOf_armedIn_of_not_matched (fun h => by
        have := List.mem_range.mp (List.mem_of_mem_filter h); omega))
      rfl rfl rfl).2.2.2
  unfold observe
  rw [advance_no_timers _ ms hb]
  exact h2

/-- Presence with and without the controller is the same for an element that,
like everything it sits inside, the handler did not match. -/
theorem inDocument_same_observeIn (layout : Layout) (dom : Dom)
    (script : List (Nat × ExternalIn)) (ms : Nat) (i : Nat)
    (hchain : chainAll (observeIn ⟨State.load dom, layout⟩ script ms).layout
      (fun j => !matchesClassIn layout dom "flash" j) (i + 1) i = true) :
    inDocument (observeIn ⟨armedPageIn layout dom, layout⟩ script ms).layout
        (observeIn ⟨armedPageIn layout dom, layout⟩ script ms).state.dom i =
      inDocument (observeIn ⟨State.load dom, layout⟩ script ms).layout
        (observeIn ⟨State.load dom, layout⟩ script ms).state.dom i := by
  have hlay : (observeIn ⟨armedPageIn layout dom, layout⟩ script ms).layout =
      (observeIn ⟨State.load dom, layout⟩ script ms).layout :=
    layout_runScriptIn_congr script _ _ rfl rfl
  unfold inDocument
  rw [hlay]
  symm
  apply chainAll_congr _ _ _ _ _ _ _ (fun _ _ => rfl) _ hchain
  intro j _ hj
  have hm : matchesClassIn layout dom "flash" j = false := by
    simpa using hj
  unfold isLinked
  rw [unmatched_same_observeIn layout dom script ms j (not_matchedIn_of_eq_false hm)]

/-! ## C6 -/

/-- C6 as the code has it: compare a page, nested or not, under the controller
with the same page under the same external activity without it.  At every
observation the stores have the same size and the same layout; every element
that did not match `.flash` when the handler ran is itself identical in both
(same style, same link to its place); such an element is in the document in
both or in neither provided none of the elements it sits inside matched; and
every element under the controller differs from its counterpart at most in that
its `animation` is the closing value or that it has been taken out of its
place. -/
theorem controller_frame_nested (layout : Layout) (dom : Dom)
    (script : List (Nat × ExternalIn)) (ms : Nat) :
    ∃ s0 p r, onDOMContentLoadedIn layout (State.load dom) = .ok s0 ∧
      p = observeIn ⟨s0, layout⟩ script ms ∧
      r = observeIn ⟨State.load dom, layout⟩ script ms ∧
      p.state.now = r.state.now ∧ p.layout = r.layout ∧
      p.state.dom.length = r.state.dom.length ∧
      (∀ i : Nat, matchesClassIn layout dom "flash" i = false →
        p.state.dom[i]? = r.state.dom[i]?) ∧
      (∀ i : Nat,
        chainAll r.layout (fun j => !matchesClassIn layout dom "flash" j) (i + 1) i = true →
        inDocument p.layout p.state.dom i = inDocument r.layout r.state.dom i) ∧
      (∀ (i : Nat) (x : Element), p.state.dom[i]? = some x →
        ∃ y, r.state.dom[i]? = some y ∧ x.classList = y.classList ∧
          x.textContent = y.textContent ∧
          (x.animation = y.animation ∨ x.animation = "slideOut .3s ease forwards") ∧
          (x.isConnected = y.isConnected ∨ x.isConnected = false)) := by
  have hrel := sameUpTo_observeIn layout dom script ms
  refine ⟨_, _, _, onDOMContentLoadedIn_load layout dom, rfl, rfl, ?_,
    layout_runScriptIn_congr script _ _ rfl rfl, hrel.1, ?_, ?_, hrel.2⟩
  · rw [state_observeIn, state_observeIn, now_observe, now_observe]
    rfl
  · intro i hi
    exact unmatched_same_observeIn layout dom script ms i (not_matchedIn_of_eq_false hi)
  · intro i hchain
    exact inDocument_same_observeIn layout dom script ms i hchain

/-- The claim as written fails on a nested page: the message inside the notice
of `nestedDom` did not match `.flash`; at 5400 ms it is in the document without
the controller and out of it with the controller. -/
theorem controller_frame_counterexample :
    ∃ s0, onDOMContentLoadedIn nestedLayout (State.load nestedDom) = .ok s0 ∧
      matchesClassIn nestedLayout nestedDom "flash" 1 = false ∧
      inDocument (observeIn ⟨State.load nestedDom, nestedLayout⟩ [] 5400).layout
        (observeIn ⟨State.load nestedDom, nestedLayout⟩ [] 5400).state.dom 1 = true ∧
      inDocument (observeIn ⟨s0, nestedLayout⟩ [] 5400).layout
        (observeIn ⟨s0, nestedLayout⟩ [] 5400).state.dom 1 = false :=
  ⟨armedPageIn nestedLayout nestedDom, by rfl, by decide, by decide, by decide⟩

end FlashDismiss

namespace FlashDismiss

/-! ## Elements that enter a nested page later -/

theorem runScriptIn_append (p : Page) (a b : List (Nat × ExternalIn)) :
    runScriptIn p (a ++ b) = runScriptIn (runScriptIn p a) b := by
  induction a generalizing p with
  | nil => rfl
  | cons x rest ih =>
    obtain ⟨delay, act⟩ := x
    simp only [List.cons_append, runScriptIn]
    exact ih _

/-- An element with no timer pending or fired, on which other code acts at some
moment and which is left alone afterwards, is found at every later observation
as that action left it, with still no timer pending or fired for it. -/
theorem late_action_unmanaged (s : State) (i : Nat) (a : External) (y : Element)
    (pre post : List (Nat × External)) (d ms : Nat) (hs : SortedQ s.timers)
    (hp : timersOf i s.timers = []) (hf : timersOf i s.fired = [])
    (hy : (applyExternal (advanceTimersByTime (runScript s pre) d).dom a)[i]? = some y)
    (hu : ∀ p ∈ post, p.2.touches i = false) :
    (observe s (pre ++ (d, a) :: post) ms).dom[i]? = some y ∧
      timersOf i (observe s (pre ++ (d, a) :: post) ms).timers = [] ∧
      timersOf i (observe s (pre ++ (d, a) :: post) ms).fired = [] := by
  obtain ⟨p1, p2, p3⟩ := pending_nil_runScript i pre s hs hp
  have hv := advance_pending_nil i _ d p3 p1
  have q1 := congrArg View.pending hv
  have q2 := congrArg View.done hv
  simp only [view] at q1 q2
  rw [p1] at q1
  rw [p2, hf] at q2
  rw [observe_append_cons]
  obtain ⟨r1, r2, r3⟩ := unmanaged_observe i y post ms
    { advanceTimersByTime (runScript s pre) d with
      dom := applyExternal (advanceTimersByTime (runScript s pre) d).dom a }
    (sortedQ_advance _ d p3) q1 hy hu
  exact ⟨r1, r2, r3.trans q2⟩

theorem map_flat_append_cons (pre post : List (Nat × ExternalIn)) (d : Nat) (a : ExternalIn) :
    (pre ++ (d, a) :: post).map (fun q => (q.1, q.2.flat)) =
      pre.map (fun q => (q.1, q.2.flat)) ++ (d, a.flat) :: post.map (fun q => (q.1, q.2.flat)) := by
  simp

theorem filter_isCreate_map_flat (pre : List (Nat × ExternalIn)) :
    ((pre.map (fun q => (q.1, q.2.flat))).filter (fun p => p.2.isCreate)).length =
      (pre.filter (fun q => q.2.flat.isCreate)).length := by
  induction pre with
  | nil => rfl
  | cons x rest ih =>
    simp only [List.map_cons, List.filter_cons]
    cases x.2.flat.isCreate <;> simp [ih]

theorem length_runScriptIn (p : Page) (script : List (Nat × ExternalIn)) :
    (runScriptIn p script).state.dom.length =
      p.state.dom.length + (script.filter (fun q => q.2.flat.isCreate)).length := by
  rw [state_runScriptIn, length_runScript, filter_isCreate_map_flat]

/-- The place recorded for an element created on a nested page, at every later
observation. -/
theorem placeOf_created (p : Page) (pre post : List (Nat × ExternalIn)) (d ms : Nat)
    (e : Element) (place : Option Nat) :
    placeOf (observeIn p (pre ++ (d, .create e place) :: post) ms).layout
      (runScriptIn p pre).state.dom.length = place := by
  rw [layout_observeIn, runScriptIn_append]
  simp only [runScriptIn]
  rw [placeOf_runScriptIn]
  · simp only [layoutAfter, length_advance]
    exact placeOf_setPlace_self _ _ _
  · simp [applyExternal, ExternalIn.flat, length_advance]

end FlashDismiss

namespace FlashDismiss

/-! ## C4 -/

theorem touches_map_flat {post : List (Nat × ExternalIn)} {i : Nat}
    (h : ∀ q ∈ post, q.2.flat.touches i = false) :
    ∀ p ∈ post.map (fun q => (q.1, q.2.flat)), p.2.touches i = false := by
  intro p hp
  obtain ⟨q, hq, rfl⟩ := List.mem_map.mp hp
  exact h q hq

/-- C4 as the code has it: the handler captures its elements once.  Take any
page, nested or not, and an element that another script creates and adds after
the handler has run, at whatever place and after whatever other activity.  At
every later observation the element itself is exactly as it was added (style as
given, still linked into its place), and no timer is pending or has fired for
it: the controller never acts on it.  It is in the document at every later
observation when it was added directly under the body, and in general it is in
the document exactly when it would be without the controller, provided none of
the elements it sits inside matched `.flash` when the handler ran.  The same
holds for an element of the store that did not match then and is attached
later. -/
theorem later_notices_on_nested_page (layout : Layout) (dom : Dom)
    (pre post : List (Nat × ExternalIn)) (d ms : Nat) (e : Element) (place : Option Nat)
    (n : Nat) (hn : n = dom.length + (pre.filter (fun q => q.2.flat.isCreate)).length)
    (hpost : ∀ q ∈ post, q.2.flat.touches n = false) :
    ∃ s0 p r, onDOMContentLoadedIn layout (State.load dom) = .ok s0 ∧
      p = observeIn ⟨s0, layout⟩ (pre ++ (d, .create e place) :: post) ms ∧
      r = observeIn ⟨State.load dom, layout⟩ (pre ++ (d, .create e place) :: post) ms ∧
      (runScriptIn ⟨s0, layout⟩ pre).state.dom[n]? = none ∧
      p.state.dom[n]? = some { e with isConnected := true } ∧
      placeOf p.layout n = place ∧
      (∀ tm ∈ p.state.timers, tm.cb.target ≠ n) ∧
      (∀ tm ∈ p.state.fired, tm.cb.target ≠ n) ∧
      (place = none → inDocument p.layout p.state.dom n = true) ∧
      (chainAll r.layout (fun j => !matchesClassIn layout dom "flash" j) (n + 1) n = true →
        inDocument p.layout p.state.dom n = inDocument r.layout r.state.dom n) ∧
      (∀ (i : Nat) (x : Element), dom[i]? = some x →
        matchesClassIn layout dom "flash" i = false →
        (∀ q ∈ pre, q.2.flat.touches i = false) → (∀ q ∈ post, q.2.flat.touches i = false) →
        (observeIn ⟨s0, layout⟩ (pre ++ (d, .attach i) :: post) ms).state.dom[i]? =
            some { x with isConnected := true } ∧
          (∀ tm ∈ (observeIn ⟨s0, layout⟩ (pre ++ (d, .attach i) :: post) ms).state.timers,
            tm.cb.target ≠ i) ∧
          (∀ tm ∈ (observeIn ⟨s0, layout⟩ (pre ++ (d, .attach i) :: post) ms).state.fired,
            tm.cb.target ≠ i)) := by
  have hlen : (runScriptIn ⟨armedPageIn layout dom, layout⟩ pre).state.dom.length = n := by
    rw [length_runScriptIn, hn]
    rfl
  have hnot : n ∉ (List.range dom.length).filter (matchesClassIn layout dom "flash") := by
    intro h
    have := List.mem_range.mp (List.mem_of_mem_filter h)
    omega
  have hnew := late_action_unmanaged (armedPageIn layout dom) n (.create e)
    { e with isConnected := true } (pre.map (fun q => (q.1, q.2.flat)))
    (post.map (fun q => (q.1, q.2.flat))) d ms (sortedQ_armedPageIn layout dom)
    (timersOf_armedIn_of_not_matched hnot) rfl
    (by
      have hl : (advanceTimersByTime (runScript (armedPageIn layout dom)
          (pre.map (fun q => (q.1, q.2.flat)))) d).dom.length = n := by
        rw [length_advance, ← state_runScriptIn ⟨armedPageIn layout dom, layout⟩ pre]
        exact hlen
      simp only [applyExternal]
      rw [List.getElem?_append_right (by omega)]
      simp [hl])
    (touches_map_flat hpost)
  have hstate : (observeIn ⟨armedPageIn layout dom, layout⟩
      (pre ++ (d, .create e place) :: post) ms).state =
      observe (armedPageIn layout dom) (pre.map (fun q => (q.1, q.2.flat)) ++
        (d, .create e) :: post.map (fun q => (q.1, q.2.flat))) ms := by
    rw [state_observeIn, map_flat_append_cons]
    rfl
  have hplace := placeOf_created ⟨armedPageIn layout dom, layout⟩ pre post d ms e place
  rw [hlen] at hplace
  refine ⟨_, _, _, onDOMContentLoadedIn_load layout dom, rfl, rfl, ?_, ?_, hplace, ?_, ?_, ?_,
    ?_, ?_⟩
  · exact List.getElem?_eq_none (by omega)
  · rw [hstate]
    exact hnew.1
  · rw [hstate]
    exact not_mem_of_timersOf_eq_nil hnew.2.1
  · rw [hstate]
    exact not_mem_of_timersOf_eq_nil hnew.2.2
  · intro hp
    have h1 : (observeIn ⟨armedPageIn layout dom, layout⟩
        (pre ++ (d, .create e place) :: post) ms).state.dom[n]? =
        some { e with isConnected := true } := by
      rw [hstate]
      exact hnew.1
    subst hp
    simp [inDocument, chainAll, isLinked, h1, hplace]
  · intro hchain
    exact inDocument_same_observeIn layout dom _ ms n hchain
  · intro i x hx hnm hupre hupost
    have hi := not_matchedIn_of_eq_false hnm
    have hsorted := sortedQ_armedPageIn layout dom
    obtain ⟨p1, _, p3⟩ := pending_nil_runScript i (pre.map (fun q => (q.1, q.2.flat)))
      (armedPageIn layout dom) hsorted (timersOf_armedIn_of_not_matched hi)
    have e1 := elem_unmanaged_runScript i x (pre.map (fun q => (q.1, q.2.flat)))
      (armedPageIn layout dom) hsorted (timersOf_armedIn_of_not_matched hi) hx
      (touches_map_flat hupre)
    have e2 : (advanceTimersByTime (runScript (armedPageIn layout dom)
        (pre.map (fun q => (q.1, q.2.flat)))) d).dom[i]? = some x := by
      have := congrArg View.elem (advance_pending_nil i _ d p3 p1)
      simp only [view] at this
      rw [this, e1]
    have hatt := late_action_unmanaged (armedPageIn layout dom) i (.attach i)
      { x with isConnected := true } (pre.map (fun q => (q.1, q.2.flat)))
      (post.map (fun q => (q.1, q.2.flat))) d ms hsorted
      (timersOf_armedIn_of_not_matched hi) rfl (by simp [applyExternal, e2])
      (touches_map_flat hupost)
    have hst : (observeIn ⟨armedPageIn layout dom, layout⟩
        (pre ++ (d, .attach i) :: post) ms).state =
        observe (armedPageIn layout dom) (pre.map (fun q => (q.1, q.2.flat)) ++
          (d, .attach i) :: post.map (fun q => (q.1, q.2.flat))) ms := by
      rw [state_observeIn, map_flat_append_cons]
      rfl
    rw [hst]
    exact ⟨hatt.1, not_mem_of_timersOf_eq_nil hatt.2.1, not_mem_of_timersOf_eq_nil hatt.2.2⟩

/-- On the page with one notice another script adds a new `.flash` element
directly under the body at 1000 ms; at 9000 ms it is as it was added and in the
document. -/
theorem later_notices_witness :
    ∃ s0, onDOMContentLoadedIn [none] (State.load oneNotice) = .ok s0 ∧
      (observeIn ⟨s0, [none]⟩ [(1000, .create lateNotice none)] 8000).state.dom[1]? =
        some ⟨["flash"], "Late", "", true⟩ ∧
      inDocument (observeIn ⟨s0, [none]⟩ [(1000, .create lateNotice none)] 8000).layout
        (observeIn ⟨s0, [none]⟩ [(1000, .create lateNotice none)] 8000).state.dom 1 = true := by
  obtain ⟨s0, p, r, h0, hp, _, _, h2, _, _, _, h6, _⟩ :=
    later_notices_on_nested_page [none] oneNotice [] [] 1000 8000 lateNotice none 1
      (by decide) (by decide)
  subst hp
  exact ⟨s0, h0, h2, h6 rfl⟩

/-- The claim as written fails on a nested page: a `.flash` element that
another script adds inside the notice of `oneNotice` at 1000 ms, after the
handler has run, is in the document at 5299 ms and out of it at 5400 ms, while
without the controller it is still in the document then. -/
theorem later_notices_counterexample :
    ∃ s0, onDOMContentLoadedIn [none] (State.load oneNotice) = .ok s0 ∧
      "flash" ∈ lateNotice.classList ∧
      (runScriptIn ⟨s0, [none]⟩ []).state.dom[1]? = none ∧
      inDocument (observeIn ⟨s0, [none]⟩ [(1000, .create lateNotice (some 0))] 4299).layout
        (observeIn ⟨s0, [none]⟩ [(1000, .create lateNotice (some 0))] 4299).state.dom 1 = true ∧
      inDocument (observeIn ⟨s0, [none]⟩ [(1000, .create lateNotice (some 0))] 4400).layout
        (observeIn ⟨s0, [none]⟩ [(1000, .create lateNotice (some 0))] 4400).state.dom 1 = false ∧
      inDocument
        (observeIn ⟨State.load oneNotice, [none]⟩ [(1000, .create lateNotice (some 0))] 4400).layout
        (observeIn ⟨State.load oneNotice, [none]⟩
          [(1000, .create lateNotice (some 0))] 4400).state.dom 1 = true :=
  ⟨armedPageIn [none] oneNotice, by rfl, by decide, by decide, by decide, by decide, by decide⟩

end FlashDismiss

namespace FlashDismiss

/-! ## A managed notice on a nested page -/

theorem leavesAlone_iff {script : List (Nat × ExternalIn)} {j : Nat} :
    leavesAlone script j = true ↔ ∀ q ∈ script, q.2.flat.touches j = false := by
  simp [leavesAlone, List.all_eq_true]

/-- The view of an element the handler matched on a nested page, at any later
observation. -/
theorem view_managed_in {layout : Layout} {dom : Dom} {i : Nat} {e : Element}
    (script : List (Nat × ExternalIn)) (ms : Nat) (he : dom[i]? = some e)
    (hdoc : inDocument layout dom i = true) (hcls : "flash" ∈ e.classList)
    (hu : ∀ q ∈ script, q.2.flat.touches i = false) :
    (observeIn ⟨armedPageIn layout dom, layout⟩ script ms).state.now =
        (script.map Prod.fst).sum + ms ∧
      view i (observeIn ⟨armedPageIn layout dom, layout⟩ script ms).state =
        phaseView e i ((script.map Prod.fst).sum + ms) := by
  have hsum : ((script.map (fun q => (q.1, q.2.flat))).map Prod.fst).sum =
      (script.map Prod.fst).sum := by
    rw [List.map_map]
    rfl
  have hnow : (observe (armedPageIn layout dom) (script.map (fun q => (q.1, q.2.flat))) ms).now =
      (script.map Prod.fst).sum + ms := by
    rw [now_observe, hsum]
    simp [armedPageIn]
  rw [state_observeIn]
  refine ⟨hnow, ?_⟩
  have h := view_observe e i (script.map (fun q => (q.1, q.2.flat))) ms
    (armedPageIn layout dom) (sortedQ_armedPageIn layout dom)
    (view_loaded_in he hdoc hcls) (touches_map_flat hu)
  rw [h, hnow]

theorem isLinked_eq_true_of {dom : Dom} {i : Nat} {e : Element} (he : dom[i]? = some e)
    (h : isLinked dom i = true) : e.isConnected = true := by
  simpa [isLinked, he] using h

/-- Before 5300 ms the controller has cut no link: an element that other
scripts leave alone is linked exactly when it was at load. -/
theorem isLinked_before_removal (layout : Layout) (dom : Dom)
    (script : List (Nat × ExternalIn)) (ms : Nat) (j : Nat) (hj : j < dom.length)
    (hu : ∀ q ∈ script, q.2.flat.touches j = false)
    (hnow : (script.map Prod.fst).sum + ms < 5300) :
    isLinked (observeIn ⟨armedPageIn layout dom, layout⟩ script ms).state.dom j =
      isLinked dom j := by
  obtain ⟨x, hx⟩ : ∃ x, dom[j]? = some x := ⟨dom[j], List.getElem?_eq_getElem hj⟩
  by_cases hm : j ∈ (List.range dom.length).filter (matchesClassIn layout dom "flash")
  · obtain ⟨e, he, hdoc, hcls⟩ := mem_flashRefsIn.mp hm
    have hlink := isLinked_of_inDocument hdoc
    have hconn := isLinked_eq_true_of he hlink
    obtain ⟨_, hv⟩ := view_managed_in script ms he hdoc hcls hu
    have hel := congrArg View.elem hv
    simp only [view] at hel
    have hc := phaseView_connected e j ((script.map Prod.fst).sum + ms) hconn
    rw [← hel] at hc
    rw [hlink]
    unfold isLinked
    cases hd : (observeIn ⟨armedPageIn layout dom, layout⟩ script ms).state.dom[j]? with
    | none => rw [hd] at hc; simp at hc
    | some y =>
      rw [hd] at hc
      simp only [Option.map_some', Option.some.injEq] at hc
      simp [hc, hnow]
  · rw [state_observeIn]
    have h := (unmanaged_observe j x (script.map (fun q => (q.1, q.2.flat))) ms
      (armedPageIn layout dom) (sortedQ_armedPageIn layout dom)
      (timersOf_armedIn_of_not_matched hm) hx (touches_map_flat hu)).1
    unfold isLinked
    rw [h, hx]

/-- A matched notice that other scripts leave alone, together with everything
it sits inside, is in the document before 5300 ms and out of it from then on. -/
theorem inDocument_managed (layout : Layout) (dom : Dom)
    (script : List (Nat × ExternalIn)) (ms : Nat) (i : Nat) (e : Element)
    (he : dom[i]? = some e) (hdoc : inDocument layout dom i = true)
    (hcls : "flash" ∈ e.classList)
    (hchain : chainAll layout (leavesAlone script) (i + 1) i = true) :
    inDocument (observeIn ⟨armedPageIn layout dom, layout⟩ script ms).layout
        (observeIn ⟨armedPageIn layout dom, layout⟩ script ms).state.dom i =
      decide ((script.map Prod.fst).sum + ms < 5300) := by
  have hi : i < dom.length := lt_length_of_getElem?_eq_some he
  have hu : ∀ q ∈ script, q.2.flat.touches i = false := by
    have : leavesAlone script i = true := by
      simp only [chainAll, Bool.and_eq_true] at hchain
      exact hchain.1
    exact leavesAlone_iff.mp this
  by_cases hnow : (script.map Prod.fst).sum + ms < 5300
  · simp only [hnow, decide_True]
    rw [← hdoc]
    unfold inDocument
    symm
    apply chainAll_congr layout _ _ _ (leavesAlone script) _ _ _ _ hchain
    · intro j hj
      rw [layout_observeIn]
      exact (placeOf_runScriptIn script ⟨armedPageIn layout dom, layout⟩ j
        (by simp only [armedPageIn]; omega)).symm
    · intro j hj hq
      exact (isLinked_before_removal layout dom script ms j (by omega)
        (leavesAlone_iff.mp hq) hnow).symm
  · simp only [hnow, decide_False]
    obtain ⟨_, hv⟩ := view_managed_in script ms he hdoc hcls hu
    have hel := congrArg View.elem hv
    simp only [view] at hel
    have hconn := isLinked_eq_true_of he (isLinked_of_inDocument hdoc)
    have hc := phaseView_connected e i ((script.map Prod.fst).sum + ms) hconn
    rw [← hel] at hc
    have hl : isLinked (observeIn ⟨armedPageIn layout dom, layout⟩ script ms).state.dom i
        = false := by
      unfold isLinked
      cases hd : (observeIn ⟨armedPageIn layout dom, layout⟩ script ms).state.dom[i]? with
      | none => rfl
      | some y =>
        rw [hd] at hc
        simp only [Option.map_some', Option.some.injEq] at hc
        simp [hc, hnow]
    simp [inDocument, chainAll, hl]

end FlashDismiss

namespace FlashDismiss

/-! ## C5 -/

/-- C5 as the code has it: take a page, nested or not, holding a matched notice
A and another matched notice B, and any second page holding A at any position
(with or without B, before or after it); let other scripts act on each page in
any way that leaves A itself alone (they may detach B early).  Observed at equal
times, A itself is in the same state on both pages (same style, same link to
its place) and its two callbacks have fired at the same times, the closing one
at 5000 ms and the removal one at 5300 ms.  On either page A is in the document
before 5300 ms and out of it from then on provided the scripts also leave alone
the elements A sits inside; a script that detaches an element around A takes A
out of the document early.  And when B is left alone as well, both notices are
linked into their places before 5300 ms and taken out at 5300 ms, each through
its own removal callback. -/
theorem timelines_on_nested_pages (layout1 layout2 : Layout) (dom1 dom2 : Dom)
    (iA jB iA2 : Nat) (a b : Element)
    (script1 script2 : List (Nat × ExternalIn)) (ms1 ms2 : Nat)
    (hA1 : dom1[iA]? = some a) (hB1 : dom1[jB]? = some b) (_hAB : iA ≠ jB)
    (hA2 : dom2[iA2]? = some a)
    (hAdoc1 : inDocument layout1 dom1 iA = true) (hAdoc2 : inDocument layout2 dom2 iA2 = true)
    (hBdoc : inDocument layout1 dom1 jB = true)
    (hacls : "flash" ∈ a.classList) (hbcls : "flash" ∈ b.classList)
    (hu1 : ∀ q ∈ script1, q.2.flat.touches iA = false)
    (hu2 : ∀ q ∈ script2, q.2.flat.touches iA2 = false)
    (htime : (script1.map Prod.fst).sum + ms1 = (script2.map Prod.fst).sum + ms2) :
    ∃ s1 s2 o1 o2, onDOMContentLoadedIn layout1 (State.load dom1) = .ok s1 ∧
      onDOMContentLoadedIn layout2 (State.load dom2) = .ok s2 ∧
      o1 = observeIn ⟨s1, layout1⟩ script1 ms1 ∧ o2 = observeIn ⟨s2, layout2⟩ script2 ms2 ∧
      o1.state.now = o2.state.now ∧
      o1.state.dom[iA]? = o2.state.dom[iA2]? ∧
      (timersOf iA o1.state.fired).map Timer.due =
        (timersOf iA2 o2.state.fired).map Timer.due ∧
      (timersOf iA o1.state.timers).map Timer.due =
        (timersOf iA2 o2.state.timers).map Timer.due ∧
      timersOf iA o1.state.fired =
        (if o1.state.now < 5000 then []
         else if o1.state.now < 5300 then [⟨5000, .startClosing iA⟩]
         else [⟨5000, .startClosing iA⟩, ⟨5300, .removeEl iA⟩]) ∧
      (chainAll layout1 (leavesAlone script1) (iA + 1) iA = true →
        inDocument o1.layout o1.state.dom iA = decide (o1.state.now < 5300)) ∧
      (chainAll layout2 (leavesAlone script2) (iA2 + 1) iA2 = true →
        inDocument o2.layout o2.state.dom iA2 = decide (o2.state.now < 5300)) ∧
      ((∀ q ∈ script1, q.2.flat.touches jB = false) →
        timersOf jB o1.state.fired =
          (if o1.state.now < 5000 then []
           else if o1.state.now < 5300 then [⟨5000, .startClosing jB⟩]
           else [⟨5000, .startClosing jB⟩, ⟨5300, .removeEl jB⟩]) ∧
        o1.state.dom[iA]?.map (fun x => x.isConnected) = some (decide (o1.state.now < 5300)) ∧
        o1.state.dom[jB]?.map (fun x => x.isConnected) = some (decide (o1.state.now < 5300))) := by
  obtain ⟨hn1, hv1⟩ := view_managed_in script1 ms1 hA1 hAdoc1 hacls hu1
  obtain ⟨hn2, hv2⟩ := view_managed_in script2 ms2 hA2 hAdoc2 hacls hu2
  have haconn := isLinked_eq_true_of hA1 (isLinked_of_inDocument hAdoc1)
  have hbconn := isLinked_eq_true_of hB1 (isLinked_of_inDocument hBdoc)
  refine ⟨_, _, _, _, onDOMContentLoadedIn_load layout1 dom1,
    onDOMContentLoadedIn_load layout2 dom2, rfl, rfl, ?_, ?_, ?_, ?_, ?_, ?_, ?_, ?_⟩
  · rw [hn1, hn2, htime]
  · have e1 := congrArg View.elem hv1
    have e2 := congrArg View.elem hv2
    simp only [view] at e1 e2
    rw [e1, e2, htime]
    exact phaseView_elem_index _ _ _ _
  · have e1 := congrArg View.done hv1
    have e2 := congrArg View.done hv2
    simp only [view] at e1 e2
    rw [e1, e2, htime, phaseView_done, phaseView_done]
    split
    · rfl
    · split <;> rfl
  · have e1 := congrArg View.pending hv1
    have e2 := congrArg View.pending hv2
    simp only [view] at e1 e2
    rw [e1, e2, htime, phaseView_pending, phaseView_pending]
    split
    · rfl
    · split <;> rfl
  · have e1 := congrArg View.done hv1
    simp only [view] at e1
    rw [e1, hn1, phaseView_done]
  · intro hchain
    rw [hn1]
    exact inDocument_managed layout1 dom1 script1 ms1 iA a hA1 hAdoc1 hacls hchain
  · intro hchain
    rw [hn2]
    exact inDocument_managed layout2 dom2 script2 ms2 iA2 a hA2 hAdoc2 hacls hchain
  · intro hB
    obtain ⟨_, hvB⟩ := view_managed_in script1 ms1 hB1 hBdoc hbcls hB
    refine ⟨?_, ?_, ?_⟩
    · have e1 := congrArg View.done hvB
      simp only [view] at e1
      rw [e1, hn1, phaseView_done]
    · have e1 := congrArg View.elem hv1
      simp only [view] at e1
      rw [e1, hn1, phaseView_connected _ _ _ haconn]
    · have e1 := congrArg View.elem hvB
      simp only [view] at e1
      rw [e1, hn1, phaseView_connected _ _ _ hbconn]

/-- The "Saved" notice of the example page, with the second notice detached
early by another script, and the same notice alone on a page of its own behind
a paragraph, are both closing and in the document when observed at 5200 ms. -/
theorem timelines_on_nested_pages_witness :
    ∃ s1 s2, onDOMContentLoadedIn [] (State.load demoDom) = .ok s1 ∧
      onDOMContentLoadedIn [] (State.load
        [⟨["content"], "Dashboard", "", true⟩, ⟨["flash", "success"], "Saved", "", true⟩])
        = .ok s2 ∧
      (observeIn ⟨s1, []⟩ demoScriptIn 0).state.dom[0]? =
        (observeIn ⟨s2, []⟩ [] 5200).state.dom[1]? ∧
      timersOf 0 (observeIn ⟨s1, []⟩ demoScriptIn 0).state.fired = [⟨5000, .startClosing 0⟩] ∧
      inDocument (observeIn ⟨s1, []⟩ demoScriptIn 0).layout
        (observeIn ⟨s1, []⟩ demoScriptIn 0).state.dom 0 = true := by
  obtain ⟨s1, s2, o1, o2, h1, h2, ho1, ho2, hn, hd, _, _, hf, hp, _, _⟩ :=
    timelines_on_nested_pages [] [] demoDom
      [⟨["content"], "Dashboard", "", true⟩, ⟨["flash", "success"], "Saved", "", true⟩]
      0 3 1 ⟨["flash", "success"], "Saved", "", true⟩
      ⟨["flash", "error"], "Failed", "fadeIn 1s", true⟩
      demoScriptIn [] 0 5200
      (by decide) (by decide) (by decide) (by decide) (by decide) (by decide) (by decide)
      (by decide) (by decide) (by decide) (by decide) (by decide)
  subst ho1 ho2
  have hs1 : s1 = armedPageIn [] demoDom := by
    have h := onDOMContentLoadedIn_load [] demoDom
    rw [h1] at h
    cases h
    rfl
  have hnow : (observeIn ⟨s1, []⟩ demoScriptIn 0).state.now = 5200 := by
    rw [hs1]
    rfl
  refine ⟨s1, s2, h1, h2, hd, ?_, ?_⟩
  · rw [hf, hnow]
    rfl
  · rw [hp (by decide), hnow]
    rfl

/-- The claim as written fails on a nested page: on `twoNotices` the notice A
(reference 1) sits inside the notice B (reference 0).  A script that detaches B
at 2000 ms and never addresses A takes A out of the document: at 3000 ms A is
out of the document, while with B left in place A is in the document at
3000 ms. -/
theorem timelines_counterexample :
    ∃ s0, onDOMContentLoadedIn nestedLayout (State.load twoNotices) = .ok s0 ∧
      matchesClassIn nestedLayout twoNotices "flash" 0 = true ∧
      matchesClassIn nestedLayout twoNotices "flash" 1 = true ∧
      leavesAlone [(2000, .detach 0)] 1 = true ∧
      (observeIn ⟨s0, nestedLayout⟩ [(2000, .detach 0)] 1000).state.now = 3000 ∧
      (observeIn ⟨s0, nestedLayout⟩ [] 3000).state.now = 3000 ∧
      inDocument (observeIn ⟨s0, nestedLayout⟩ [(2000, .detach 0)] 1000).layout
        (observeIn ⟨s0, nestedLayout⟩ [(2000, .detach 0)] 1000).state.dom 1 = false ∧
      inDocument (observeIn ⟨s0, nestedLayout⟩ [] 3000).layout
        (observeIn ⟨s0, nestedLayout⟩ [] 3000).state.dom 1 = true :=
  ⟨armedPageIn nestedLayout twoNotices, by rfl, by decide, by decide, by decide, by rfl, by rfl,
    by decide, by decide⟩

end FlashDismiss
